import Mathlib

/-!
Shallow embedding of the BM25 retrieval core (`backend/rag_system.py`) and the
two tool-orchestration loops (`backend/debate_agents.py::run_agent`,
`backend/main.py::run_meal_agent`) of the menu-recommendation system.

Python floats are modelled as exact rationals `ℚ`; the one transcendental
primitive, `math.log`, is taken as an explicit function parameter
`log : ℚ → ℚ` (the natural логarithm is one instance; theorems that need
facts about `ln` take them as the hypothesis `LogSpec`).  Python dicts are
modelled as insertion-ordered association lists, matching CPython's
guaranteed iteration order.
-/

namespace MenuRag

/-- Python dict lookup `d.get(k)`: first (unique, by invariant) binding. -/
def dlookup {β : Type} (d : List (String × β)) (k : String) : Option β :=
  match d with
  | [] => Option.none
  | (k', v) :: rest => if k' = k then some v else dlookup rest k

/-- Python dict assignment `d[k] = v`: overwrite in place, else append
(insertion order preserved, as in CPython). -/
def dinsert {β : Type} (d : List (String × β)) (k : String) (v : β) :
    List (String × β) :=
  match d with
  | [] => [(k, v)]
  | (k', v') :: rest =>
    if k' = k then (k, v) :: rest else (k', v') :: dinsert rest k v

/-- `defaultdict(list)` append: `d[k].append(x)`. -/
def dappend {β : Type} (d : List (String × List β)) (k : String) (x : β) :
    List (String × List β) :=
  match d with
  | [] => [(k, [x])]
  | (k', l) :: rest =>
    if k' = k then (k', l ++ [x]) :: rest else (k', l) :: dappend rest k x

/-- `defaultdict(float)` accumulation: `d[k] += q`. -/
def daddQ (d : List (String × ℚ)) (k : String) (q : ℚ) : List (String × ℚ) :=
  match d with
  | [] => [(k, q)]
  | (k', v) :: rest =>
    if k' = k then (k', v + q) :: rest else (k', v) :: daddQ rest k q

/-- Python's `str.lower()` (per-character, ASCII). -/
def pyLower (s : String) : String :=
  String.mk (s.toList.map Char.toLower)

/-- Leading- and trailing-whitespace removal on a character list. -/
def stripChars (cs : List Char) : List Char :=
  ((cs.dropWhile Char.isWhitespace).reverse.dropWhile Char.isWhitespace).reverse

/-- Python's `str.strip()`. -/
def pyStrip (s : String) : String :=
  String.mk (stripChars s.toList)

/-- `key.replace("-", " ")` for the one-character pattern used here. -/
def replaceDash (s : String) : String :=
  String.mk (s.toList.map (fun c => if c = '-' then ' ' else c))

/-- A character matched by the regex class `\w` (ASCII reading). -/
def isWordChar (c : Char) : Bool := c.isAlphanum || c = '_'

/-- Splits a character list into maximal runs of word characters;
`acc` is the current run, reversed. -/
def tokenizeAux : List Char → List Char → List (List Char)
  | [], acc => if acc.isEmpty then [] else [acc.reverse]
  | c :: cs, acc =>
    if isWordChar c then tokenizeAux cs (c :: acc)
    else if acc.isEmpty then tokenizeAux cs []
    else acc.reverse :: tokenizeAux cs []

/-- `MenuRAGSystem._tokenize`: `re.findall(r"\b\w+\b", text.lower())`,
i.e. the maximal word-character runs of the lower-cased text. -/
def tokenize (text : String) : List String :=
  (tokenizeAux (text.toList.map Char.toLower) []).map (fun cs => String.mk cs)

/-- A dynamically-typed nutrition value as stored in a metadata dict:
absent/None, a number, or a string. -/
inductive PyVal where
  | none : PyVal
  | num : ℚ → PyVal
  | str : String → PyVal
deriving DecidableEq

/-- Python truthiness of a metadata value (`None`, `0` and `""` are falsy). -/
def pyTruthy : PyVal → Bool
  | PyVal.none => false
  | PyVal.num q => q != 0
  | PyVal.str s => s != ""

/-- Python `v or d` for a numeric default `d`. -/
def pyOr (v : PyVal) (d : ℚ) : PyVal :=
  if pyTruthy v then v else PyVal.num d

/-- Digit-run value in base 10. -/
def digitsToNat (cs : List Char) : ℕ :=
  cs.foldl (fun a c => 10 * a + (c.toNat - 48)) 0

/-- Unsigned decimal literal: `digits`, `digits.digits`, `digits.` or
`.digits`. -/
def parseUnsigned (cs : List Char) : Option ℚ :=
  let intPart := cs.takeWhile Char.isDigit
  let rest := cs.dropWhile Char.isDigit
  match rest with
  | [] => if intPart.isEmpty then Option.none else some (digitsToNat intPart)
  | '.' :: frac =>
    if frac.all Char.isDigit && !(intPart.isEmpty && frac.isEmpty) then
      some ((digitsToNat intPart : ℚ) + (digitsToNat frac : ℚ) / 10 ^ frac.length)
    else Option.none
  | _ => Option.none

/-- Python's `float(str)` on plain decimal literals (optional sign and
surrounding whitespace; exponents / inf / nan are not produced by this
code base's data). -/
def parseDecimal (s : String) : Option ℚ :=
  match stripChars s.toList with
  | '+' :: cs => parseUnsigned cs
  | '-' :: cs => (parseUnsigned cs).map Neg.neg
  | cs => parseUnsigned cs

/-- Python's `float(v)`: numbers pass through, strings are parsed,
`None` raises (here: fails). -/
def pyFloat : PyVal → Option ℚ
  | PyVal.num q => some q
  | PyVal.str s => parseDecimal s
  | PyVal.none => Option.none

/-- The metadata dict attached to each document:
`{**item, "hall": hall_name, "station": station}`. -/
structure Meta where
  hall : String
  station : String
  name : String
  calories : PyVal
  protein_g : PyVal
  carbs_g : PyVal
  fat_g : PyVal
  fiber_g : PyVal
  dietary_flags : List String
  description : String
deriving DecidableEq

/-- `BM25_K1 = 1.5` (term-frequency saturation). -/
def BM25_K1 : ℚ := 3 / 2

/-- `BM25_B = 0.75` (document length normalization). -/
def BM25_B : ℚ := 3 / 4

/-- The mutable state of one `MenuRAGSystem` instance. -/
structure RAGState where
  documents : List (String × String × Meta)
  inverted_index : List (String × List (String × ℕ))
  idf : List (String × ℚ)
  doc_lengths : List (String × ℕ)
  avg_doc_length : ℚ
  built : Bool
deriving DecidableEq

/-- `MenuRAGSystem.__init__`. -/
def initState : RAGState :=
  { documents := [], inverted_index := [], idf := [], doc_lengths := [],
    avg_doc_length := 0, built := false }

/-- First-occurrence order of the distinct elements of a list: the key
order of a Python dict built by incrementing counters over the list. -/
def dedupFirst : List String → List String
  | [] => []
  | t :: ts => t :: (dedupFirst ts).filter (fun x => x ≠ t)

/-- The `(term, count)` items of the per-document term-frequency dict,
in first-occurrence order. -/
def tfItems (tokens : List String) : List (String × ℕ) :=
  (dedupFirst tokens).map (fun t => (t, tokens.count t))

/-- `MenuRAGSystem.add_document`. -/
def add_document (s : RAGState) (doc_id text : String) (meta : Meta) :
    RAGState :=
  let tokens := tokenize text
  { s with
    documents := s.documents ++ [(doc_id, text, meta)],
    doc_lengths := dinsert s.doc_lengths doc_id tokens.length,
    inverted_index :=
      (tfItems tokens).foldl (fun d p => dappend d p.1 (doc_id, p.2))
        s.inverted_index }

/-- `MenuRAGSystem.build_index`, with `math.log` supplied as `log`. -/
def build_index (log : ℚ → ℚ) (s : RAGState) : RAGState :=
  let n := s.documents.length
  if n = 0 then s
  else
    { s with
      avg_doc_length := ((s.doc_lengths.map (fun p => p.2)).sum : ℚ) / n,
      idf := s.inverted_index.map (fun p =>
        (p.1, log (((n : ℚ) - p.2.length + 1/2) / ((p.2.length : ℚ) + 1/2) + 1))),
      built := true }

/-- `MenuRAGSystem._bm25_score`. -/
def bm25_score (s : RAGState) (doc_id : String) (query_tokens : List String) :
    ℚ :=
  let dl : ℚ := ((dlookup s.doc_lengths doc_id).getD 0 : ℕ)
  let norm : ℚ := 1 - BM25_B + BM25_B * dl / max s.avg_doc_length 1
  query_tokens.foldl (fun score tok =>
    let idf := (dlookup s.idf tok).getD 0
    if idf = 0 then score
    else
      match ((dlookup s.inverted_index tok).getD []).find?
          (fun p => p.1 == doc_id) with
      | some p =>
        score + idf * ((p.2 : ℚ) * (BM25_K1 + 1)) / ((p.2 : ℚ) + BM25_K1 * norm)
      | Option.none => score) 0

/-- The `RESTRICTION_SYNONYMS` table, as a lookup with the Python
`dict.get(restriction, [restriction])` default for unknown keys. -/
def restrictionSynonyms (r : String) : List String :=
  if r = "vegan" then ["vegan", "plant-based"]
  else if r = "vegetarian" then ["vegetarian", "vegan"]
  else if r = "gluten-free" then ["gluten", "gluten-free", "gluten free"]
  else if r = "halal" then ["halal"]
  else if r = "kosher" then ["kosher"]
  else if r = "dairy-free" then ["dairy", "dairy-free", "dairy free", "lactose"]
  else if r = "nut-free" then ["nut", "peanut", "tree nut"]
  else if r = "low-calorie" then []
  else if r = "high-protein" then []
  else [r]

/-- The key iteration order of `RESTRICTION_SYNONYMS` (dict insertion order). -/
def restrictionKeys : List String :=
  ["vegan", "vegetarian", "gluten-free", "halal", "kosher", "dairy-free",
   "nut-free", "low-calorie", "high-protein"]

/-- Python's `needle in hay` substring test. -/
def strContains (hay needle : String) : Bool :=
  hay.toList.tails.any (fun t => needle.toList.isPrefixOf t)

/-- The `" ".join(f.lower() for f in metadata.get("dietary_flags", []))`
string one restriction is matched against. -/
def flags_str (m : Meta) : String :=
  String.intercalate " " (m.dietary_flags.map pyLower)

/-- One iteration of the `_matches_dietary` loop: whether a single
restriction is satisfied (the loop `continue`s rather than `return False`). -/
def passesRestriction (m : Meta) (r0 : String) : Bool :=
  let r := pyStrip (pyLower r0)
  if r = "high-protein" || r = "high protein" then
    match pyFloat (pyOr m.protein_g 0) with
    | some q => decide (¬ q < 15)
    | Option.none => false
  else if r = "low-calorie" || r = "low calorie" then
    match pyFloat (pyOr m.calories 9999) with
    | some q => decide (¬ 400 < q)
    | Option.none => false
  else
    (restrictionSynonyms r).any (fun syn => strContains (flags_str m) syn)

/-- `MenuRAGSystem._matches_dietary`: the loop with its early
`return False`, i.e. all restrictions must pass. -/
def matches_dietary (m : Meta) : List String → Bool
  | [] => true
  | r :: rs => if passesRestriction m r then matches_dietary m rs else false

/-- Truthiness of the optional `hall_filter` argument (`None` and `""`
are falsy). -/
def optStrTruthy : Option String → Bool
  | Option.none => false
  | some h => h != ""

/-- Truthiness of the optional `dietary_filter` argument (`None` and `[]`
are falsy). -/
def optListTruthy : Option (List String) → Bool
  | Option.none => false
  | some l => !l.isEmpty

/-- Descending-by-score comparison used to model
`results.sort(key=lambda x: x[3], reverse=True)` (CPython's sort is
stable, as is `List.mergeSort`). -/
def byScoreDesc (a b : String × String × Meta × ℚ) : Bool :=
  decide (b.2.2.2 ≤ a.2.2.2)

/-- The `scores` dict of `MenuRAGSystem.search`: iterate the documents,
apply the hall and dietary hard filters, score the survivors. -/
def searchScores (s : RAGState) (query_tokens : List String)
    (hall_filter : Option String) (dietary_filter : Option (List String)) :
    List (String × ℚ) :=
  s.documents.foldl (fun sc d =>
    if optStrTruthy hall_filter
        && (pyLower d.2.2.hall != pyLower (hall_filter.getD "")) then sc
    else if optListTruthy dietary_filter
        && !(matches_dietary d.2.2 (dietary_filter.getD [])) then sc
    else dinsert sc d.1 (bm25_score s d.1 query_tokens)) []

/-- `MenuRAGSystem.search`.  `scores.items()` keys always resolve in
`doc_map`, so the `Option.map` never drops an entry on reachable data. -/
def search (log : ℚ → ℚ) (s0 : RAGState) (query : String) (top_k : ℕ)
    (hall_filter : Option String) (dietary_filter : Option (List String)) :
    List (String × String × Meta × ℚ) :=
  let s := if s0.built then s0 else build_index log s0
  let query_tokens := tokenize query
  let scores := searchScores s query_tokens hall_filter dietary_filter
  let doc_map := s.documents.foldl (fun dm d => dinsert dm d.1 d) []
  let results := scores.filterMap (fun p =>
    if 0 < p.2 then
      (dlookup doc_map p.1).map (fun d => (p.1, d.2.1, d.2.2, p.2))
    else Option.none)
  (results.mergeSort byScoreDesc).take top_k

/-- `MenuRAGSystem.get_all_halls`: distinct non-empty hall names in
document order. -/
def get_all_halls (s : RAGState) : List String :=
  s.documents.foldl (fun seen d =>
    if d.2.2.hall ≠ "" ∧ d.2.2.hall ∉ seen then seen ++ [d.2.2.hall] else seen)
    []

/-- The user-preference record consumed by `score_halls_for_user`
(`prefs.get(..., "")` defaults folded into plain string fields). -/
structure Prefs where
  goal : String
  preferences : String
  restrictions : String

/-- The unified preference query of `score_halls_for_user`. -/
def prefsQuery (prefs : Prefs) : String :=
  String.intercalate " "
    (([prefs.goal, prefs.preferences, prefs.restrictions]).filter
      (fun p => p ≠ ""))

/-- The dietary hard-filter list of `score_halls_for_user`: known
restriction keys substring-matched (with and without hyphens) against the
lower-cased restrictions text. -/
def prefsDietaryFilter (prefs : Prefs) : List String :=
  let restrictions_raw := pyLower prefs.restrictions
  restrictionKeys.filter (fun key =>
    strContains restrictions_raw (replaceDash key)
      || strContains restrictions_raw key)

/-- The `hall_scores` accumulation of `score_halls_for_user`:
`hall_scores[meta.get("hall", "")] += score` over the search results. -/
def hallScoresOf (results : List (String × String × Meta × ℚ)) :
    List (String × ℚ) :=
  results.foldl (fun hs r => daddQ hs r.2.2.1.hall r.2.2.2) []

/-- Descending comparison for `sorted(hall_scores.items(), key=..., reverse=True)`. -/
def bySndDesc (a b : String × ℚ) : Bool :=
  decide (b.2 ≤ a.2)

/-- The padding loop of `score_halls_for_user`: append remaining halls
until `top_n` entries are collected (`break` once reached). -/
def padHalls (top_n : ℕ) (top : List String) : List String → List String
  | [] => top
  | h :: hs =>
    if top_n ≤ top.length then top
    else if h ∈ top then padHalls top_n top hs
    else padHalls top_n (top ++ [h]) hs

/-- The per-hall aggregate relevance table of `score_halls_for_user`:
`hall_scores` accumulated over the results of the preference search
(`top_k = 200`, dietary filter `or None`). -/
def hallAggregates (log : ℚ → ℚ) (prefs : Prefs) (rag : RAGState) :
    List (String × ℚ) :=
  hallScoresOf (search log rag (prefsQuery prefs) 200 Option.none
    (if (prefsDietaryFilter prefs).isEmpty then Option.none
     else some (prefsDietaryFilter prefs)))

/-- `score_halls_for_user`. -/
def score_halls_for_user (log : ℚ → ℚ) (prefs : Prefs) (rag : RAGState)
    (top_n : ℕ) : List (String × ℚ) :=
  let hall_scores := hallAggregates log prefs rag
  let ranked := hall_scores.mergeSort bySndDesc
  let top := (ranked.take top_n).filterMap (fun p =>
    if p.1 ≠ "" then some p.1 else Option.none)
  let top2 := padHalls top_n top (get_all_halls rag)
  top2.map (fun h => (h, (dlookup hall_scores h).getD 0))

/-- A catalog food item as supplied by the fetch layer: nutrition fields
are optional non-negative numbers (spec §3), flags a list of labels. -/
structure FoodItem where
  name : String
  calories : Option ℚ
  protein_g : Option ℚ
  carbs_g : Option ℚ
  fat_g : Option ℚ
  fiber_g : Option ℚ
  dietary_flags : List String
  description : String
deriving DecidableEq

/-- Truthiness of an optional numeric item field (`None` and `0` falsy). -/
def optQTruthy : Option ℚ → Bool
  | some q => q != 0
  | Option.none => false

/-- The numeric value of an optional field; only read under a truthy guard. -/
def optQVal : Option ℚ → ℚ
  | some q => q
  | Option.none => 0

/-- Python's `int()` truncation toward zero. -/
def pyInt (q : ℚ) : ℤ :=
  if q < 0 then -(⌊-q⌋) else ⌊q⌋

/-- An item field injected into the metadata dict. -/
def pyValOfOpt : Option ℚ → PyVal
  | some q => PyVal.num q
  | Option.none => PyVal.none

/-- The `nutrient_tags` list of `build_rag_from_menus` (the surrounding
`try` can only fire on non-numeric data, which the catalog type excludes). -/
def nutrientTags (item : FoodItem) : List String :=
  (if optQTruthy item.protein_g && decide (20 ≤ optQVal item.protein_g)
    then ["high protein"] else []) ++
  (if optQTruthy item.calories && decide (optQVal item.calories ≤ 300)
    then ["low calorie light"] else []) ++
  (if optQTruthy item.calories && decide (700 ≤ optQVal item.calories)
    then ["hearty filling"] else []) ++
  (if optQTruthy item.fiber_g && decide (5 ≤ optQVal item.fiber_g)
    then ["high fiber"] else [])

/-- The full-text document representation built by `build_rag_from_menus`;
`fmt` models Python's float-to-string formatting (a builtin, kept
abstract — no claim depends on its digits). -/
def itemText (fmt : ℚ → String) (hall_name station : String)
    (item : FoodItem) : String :=
  let flags_s := if item.dietary_flags.isEmpty then "no special flags"
    else String.intercalate ", " item.dietary_flags
  let cal_str := if optQTruthy item.calories
    then toString (pyInt (optQVal item.calories)) ++ " calories" else ""
  let protein_str := if optQTruthy item.protein_g
    then fmt (optQVal item.protein_g) ++ " grams protein" else ""
  let carbs_str := if optQTruthy item.carbs_g
    then fmt (optQVal item.carbs_g) ++ " grams carbs" else ""
  let fat_str := if optQTruthy item.fat_g
    then fmt (optQVal item.fat_g) ++ " grams fat" else ""
  let fiber_str := if optQTruthy item.fiber_g
    then fmt (optQVal item.fiber_g) ++ " grams fiber" else ""
  let tags := nutrientTags item
  item.name ++ " served at " ++ hall_name ++ " dining hall in the "
    ++ station ++ " station. Dietary flags: " ++ flags_s ++ ". "
    ++ (if cal_str ≠ "" then cal_str ++ ". " else "")
    ++ (if protein_str ≠ "" then protein_str ++ ". " else "")
    ++ (if carbs_str ≠ "" then carbs_str ++ ". " else "")
    ++ (if fat_str ≠ "" then fat_str ++ ". " else "")
    ++ (if fiber_str ≠ "" then fiber_str ++ ". " else "")
    ++ (if !tags.isEmpty then String.intercalate " " tags ++ ". " else "")
    ++ item.description

/-- The document id `f"{hall_name}::{station}::{item['name']}"`. -/
def docId (hall_name station : String) (item : FoodItem) : String :=
  hall_name ++ "::" ++ station ++ "::" ++ item.name

/-- The metadata dict `{**item, "hall": hall_name, "station": station}`. -/
def metaOf (hall_name station : String) (item : FoodItem) : Meta :=
  { hall := hall_name, station := station, name := item.name,
    calories := pyValOfOpt item.calories,
    protein_g := pyValOfOpt item.protein_g,
    carbs_g := pyValOfOpt item.carbs_g,
    fat_g := pyValOfOpt item.fat_g,
    fiber_g := pyValOfOpt item.fiber_g,
    dietary_flags := item.dietary_flags,
    description := item.description }

/-- `build_rag_from_menus`: every catalog item becomes a document, then
the index is built. -/
def build_rag_from_menus (log : ℚ → ℚ) (fmt : ℚ → String)
    (all_menus : List (String × List (String × List FoodItem))) : RAGState :=
  let rag := all_menus.foldl (fun r hm =>
    hm.2.foldl (fun r sm =>
      sm.2.foldl (fun r item =>
        add_document r (docId hm.1 sm.1 item) (itemText fmt hm.1 sm.1 item)
          (metaOf hm.1 sm.1 item)) r) r) initState
  build_index log rag

/-- A sequence of `add_document` calls applied in order. -/
def applyAdds (s : RAGState) : List (String × String × Meta) → RAGState
  | [] => s
  | a :: rest => applyAdds (add_document s a.1 a.2.1 a.2.2) rest

/-- The facts about `math.log` the proofs rely on: the natural logarithm
is non-negative on `[1, ∞)` and positive on `(1, ∞)`. -/
def LogSpec (log : ℚ → ℚ) : Prop :=
  (∀ x : ℚ, 1 ≤ x → 0 ≤ log x) ∧ (∀ x : ℚ, 1 < x → 0 < log x)

/-- A computable function satisfying `LogSpec`, used to evaluate the
embedding on concrete inputs. -/
def logW : ℚ → ℚ := fun q => max 0 (q - 1)

/-- One requested tool invocation parsed from a service response. -/
structure ToolUse where
  name : String
  input : String
  id : String

/-- One reasoning-service response: its concatenated text blocks, its
requested tool invocations, and whether `stop_reason == "end_turn"`. -/
structure ModelResponse where
  text : String
  toolUses : List ToolUse
  endTurn : Bool

/-- The loop body of `debate_agents.run_agent` (error-free transport).
`respond i` is the service's answer to the `i`-th request; the returned
`List Bool` records, per request sent, whether the tool-schema set was
attached.  The message transcript and tool results do not influence
either output, so they are not carried. -/
def runAgentAux (respond : ℕ → ModelResponse) (max_turns : ℕ) :
    ℕ → ℕ → String → List Bool → List Bool × String
  | 0, _, final_text, sent =>
    (sent, if final_text = "" then "[Agent did not produce a response]"
      else final_text)
  | fuel + 1, turn, _, sent =>
    let is_last := decide (turn = max_turns - 1)
    let sent' := sent ++ [!is_last]
    let response := respond turn
    if response.endTurn || response.toolUses.isEmpty then
      (sent', response.text)
    else runAgentAux respond max_turns fuel (turn + 1) response.text sent'

/-- `debate_agents.run_agent`: up to `max_turns` exchanges; on the final
turn the `tools` key is not attached to the request. -/
def run_agent (respond : ℕ → ModelResponse) (max_turns : ℕ) :
    List Bool × String :=
  runAgentAux respond max_turns max_turns 0 "" []

/-- The loop body of `main.run_meal_agent` (error-free transport): every
request carries `tools=AGENT_TOOLS`; once `send_recommendation` is seen,
one extra closing exchange (also with tools) runs and the loop breaks. -/
def runMealAux (respond : ℕ → ModelResponse) :
    ℕ → ℕ → String → List Bool → List Bool × String
  | 0, _, final_text, sent => (sent, final_text)
  | fuel + 1, turn, _, sent =>
    let response := respond turn
    let sent' := sent ++ [true]
    if response.endTurn || response.toolUses.isEmpty then
      (sent', response.text)
    else if response.toolUses.any (fun tu => tu.name == "send_recommendation")
    then
      let closing := respond (turn + 1)
      (sent' ++ [true],
        if pyStrip closing.text ≠ "" then pyStrip closing.text else response.text)
    else runMealAux respond fuel (turn + 1) response.text sent'

/-- `main.run_meal_agent`: fixed budget of 10 turns. -/
def run_meal_agent (respond : ℕ → ModelResponse) : List Bool × String :=
  runMealAux respond 10 0 "" []

/-- What the posting list of a term says about the documents themselves:
one `(doc id, term count)` entry per stored document whose token list
contains the term, in storage order. -/
def postingsSpec (docs : List (String × String × Meta)) (t : String) :
    List (String × ℕ) :=
  docs.filterMap (fun d =>
    if (tokenize d.2.1).count t ≠ 0 then some (d.1, (tokenize d.2.1).count t)
    else Option.none)

/-- One summand of the claim's BM25 formula, with the normalization
denominator `avgUsed` left as a parameter (the claim divides by
`avgDocLength`; the code divides by `max avgDocLength 1`). -/
def bm25ClaimTerm (s : RAGState) (docTokens : List String) (avgUsed : ℚ)
    (tok : String) : ℚ :=
  ((dlookup s.idf tok).getD 0)
    * (((docTokens.count tok : ℕ) : ℚ) * (BM25_K1 + 1))
    / (((docTokens.count tok : ℕ) : ℚ)
        + BM25_K1 * (1 - BM25_B + BM25_B * (docTokens.length : ℚ) / avgUsed))

/-- The claim's scoring formula exactly as stated (C1):
`Σ idf(t) * tf * (k1+1) / (tf + k1 * (1 - b + b * |doc| / avgDocLength))`. -/
def specScore (s : RAGState) (docTokens : List String)
    (query_tokens : List String) : ℚ :=
  (query_tokens.map (bm25ClaimTerm s docTokens s.avg_doc_length)).sum

/-- The claim's scoring formula with the code's actual normalization
denominator `max avgDocLength 1`. -/
def specScoreClamped (s : RAGState) (docTokens : List String)
    (query_tokens : List String) : ℚ :=
  (query_tokens.map (bm25ClaimTerm s docTokens (max s.avg_doc_length 1))).sum

/-- A plain metadata record used to build concrete stores. -/
def mPlain : Meta :=
  { hall := "A"
    station := "S"
    name := "n"
    calories := PyVal.none
    protein_g := PyVal.none
    carbs_g := PyVal.none
    fat_g := PyVal.none
    fiber_g := PyVal.none
    dietary_flags := []
    description := "" }

/-- A built two-document store whose average document length is 1/2
(one one-token text, one empty text). -/
def ragC1 : RAGState :=
  build_index logW
    (applyAdds initState [("d1", "x", mPlain), ("d2", "", mPlain)])

/-- A store built with two `add_document` calls sharing the id `"a"`. -/
def ragDup : RAGState :=
  applyAdds initState [("a", "x y", mPlain), ("a", "z", mPlain)]

/-- The `results` list inside `search`, before sorting and truncation. -/
def searchResults (s : RAGState) (qtoks : List String)
    (hf : Option String) (df : Option (List String)) :
    List (String × String × Meta × ℚ) :=
  let scores := searchScores s qtoks hf df
  let doc_map := s.documents.foldl (fun dm d => dinsert dm d.1 d) []
  scores.filterMap (fun p =>
    if 0 < p.2 then
      (dlookup doc_map p.1).map (fun d => (p.1, d.2.1, d.2.2, p.2))
    else Option.none)

/-- An item whose only dietary flag is `"vegan"`. -/
def mVegan : Meta :=
  { mPlain with dietary_flags := ["vegan"] }

/-- An item whose calories field is present and exactly `0`. -/
def mZeroCal : Meta :=
  { mPlain with calories := PyVal.num 0 }

/-- The low-calorie criterion exactly as C5 states it: calories
(treated as the sentinel 9999 only when MISSING) must be ≤ 400; a
non-numeric or unparseable value fails. -/
def specLowCaloriePass (m : Meta) : Prop :=
  match m.calories with
  | PyVal.none => (9999 : ℚ) ≤ 400
  | v => ∃ q, pyFloat v = some q ∧ q ≤ 400

/-- A service behaviour that requests a (non-terminal) tool on every
turn and never ends its turn. -/
def respToolLoop : ℕ → ModelResponse :=
  fun _ => { text := "", toolUses := [⟨"search_menu", "q", "t1"⟩],
             endTurn := false }

/-- An abstract float formatter instance for concrete evaluations. -/
def fmt0 : ℚ → String := fun _ => ""

/-- A one-item catalog for concrete evaluations. -/
def menus0 : List (String × List (String × List FoodItem)) :=
  [("North", [("Grill",
    [{ name := "Grilled Chicken"
       calories := some 350
       protein_g := some 30
       carbs_g := Option.none
       fat_g := Option.none
       fiber_g := Option.none
       dietary_flags := ["gluten-free"]
       description := "" }])])]

/-- Items placed in halls `"A"`, `""` (empty name), `"B"` and `"C"`. -/
def mHallA : Meta := { mPlain with hall := "A" }

/-- Item metadata with an empty hall name. -/
def mHallEmpty : Meta := { mPlain with hall := "" }

/-- Item metadata in hall `"B"`. -/
def mHallB : Meta := { mPlain with hall := "B" }

/-- Item metadata in hall `"C"`. -/
def mHallC : Meta := { mPlain with hall := "C" }

/-- A built store over halls A (two matching docs), the empty-named hall
(one matching doc), C (one non-matching doc) and B (one weakly matching
doc). -/
def ragHalls : RAGState :=
  build_index logW (applyAdds initState
    [("a1", "x", mHallA), ("a2", "x", mHallA), ("e1", "x", mHallEmpty),
     ("c1", "z", mHallC), ("b1", "x y y", mHallB)])

/-- The preference record whose unified query is `"x"` with no dietary
filter. -/
def prefsX : Prefs :=
  { goal := "x"
    preferences := ""
    restrictions := "" }

/-- A built store over two non-empty-named halls. -/
def ragHallsOK : RAGState :=
  build_index logW (applyAdds initState
    [("a1", "x", mHallA), ("b1", "y", mHallB)])

/-! ## Dictionary lemmas -/

theorem dlookup_nil {β : Type} (k : String) :
    dlookup ([] : List (String × β)) k = Option.none := rfl

theorem dlookup_cons {β : Type} (k k' : String) (v : β)
    (d : List (String × β)) :
    dlookup ((k', v) :: d) k = if k' = k then some v else dlookup d k := rfl

theorem dlookup_dinsert {β : Type} (d : List (String × β)) (k : String)
    (v : β) (k' : String) :
    dlookup (dinsert d k v) k' = if k = k' then some v else dlookup d k' := by
  induction d with
  | nil => simp [dinsert, dlookup]
  | cons p rest ih =>
    obtain ⟨k₀, v₀⟩ := p
    by_cases h : k₀ = k
    · subst h
      by_cases h2 : k₀ = k' <;> simp [dinsert, dlookup, h2]
    · by_cases h2 : k₀ = k'
      · subst h2
        have : ¬ k = k₀ := fun hh => h hh.symm
        simp [dinsert, h, dlookup, this]
      · simp [dinsert, h, dlookup, h2, ih]

theorem keys_dinsert {β : Type} (d : List (String × β)) (k : String) (v : β) :
    (dinsert d k v).map Prod.fst =
      if k ∈ d.map Prod.fst then d.map Prod.fst else d.map Prod.fst ++ [k] := by
  induction d with
  | nil => simp [dinsert]
  | cons p rest ih =>
    obtain ⟨k₀, v₀⟩ := p
    by_cases h : k₀ = k
    · subst h; simp [dinsert]
    · have : ¬ k = k₀ := fun hh => h hh.symm
      by_cases h2 : k ∈ rest.map Prod.fst <;>
        simp [dinsert, h, ih, this, h2]

theorem nodup_keys_dinsert {β : Type} (d : List (String × β)) (k : String)
    (v : β) (h : (d.map Prod.fst).Nodup) :
    ((dinsert d k v).map Prod.fst).Nodup := by
  rw [keys_dinsert]
  by_cases h2 : k ∈ d.map Prod.fst
  · simp [h2, h]
  · simp [h2, List.nodup_append, h]

theorem dlookup_dappend {β : Type} (d : List (String × List β)) (k : String)
    (x : β) (k' : String) :
    (dlookup (dappend d k x) k').getD [] =
      (dlookup d k').getD [] ++ (if k = k' then [x] else []) := by
  induction d with
  | nil =>
    by_cases h : k = k' <;> simp [dappend, dlookup, h]
  | cons p rest ih =>
    obtain ⟨k₀, l₀⟩ := p
    by_cases h : k₀ = k
    · subst h
      by_cases h2 : k₀ = k' <;> simp [dappend, dlookup, h2]
    · by_cases h2 : k₀ = k'
      · subst h2
        have : ¬ k = k₀ := fun hh => h hh.symm
        simp [dappend, h, dlookup, this]
      · simp [dappend, h, dlookup, h2, ih]

theorem dlookup_foldl_dappend {β : Type} (items : List (String × β))
    (d : List (String × List (String × β))) (id t : String) :
    (dlookup (items.foldl (fun d p => dappend d p.1 (id, p.2)) d) t).getD []
      = (dlookup d t).getD []
        ++ (items.filter (fun p => p.1 = t)).map (fun p => (id, p.2)) := by
  induction items generalizing d with
  | nil => simp
  | cons p rest ih =>
    by_cases h : p.1 = t <;>
      simp [List.foldl_cons, ih, dlookup_dappend, h]

/-! ## Tokenizer bookkeeping -/

theorem mem_dedupFirst (a : String) : ∀ l : List String,
    a ∈ dedupFirst l ↔ a ∈ l := by
  intro l
  induction l with
  | nil => simp [dedupFirst]
  | cons t ts ih =>
    by_cases h : a = t
    · subst h; simp [dedupFirst]
    · simp [dedupFirst, h, List.mem_filter, ih]

theorem nodup_dedupFirst : ∀ l : List String, (dedupFirst l).Nodup := by
  intro l
  induction l with
  | nil => simp [dedupFirst]
  | cons t ts ih =>
    simp only [dedupFirst, List.nodup_cons]
    constructor
    · intro hmem
      have ht := (List.mem_filter.mp hmem).2
      simp at ht
    · exact ih.filter _

theorem filter_eq_of_nodup (l : List String) (hl : l.Nodup) (t : String) :
    l.filter (fun x => x = t) = if t ∈ l then [t] else [] := by
  induction l with
  | nil => simp
  | cons a rest ih =>
    rcases List.nodup_cons.mp hl with ⟨ha, hrest⟩
    by_cases h : a = t
    · subst h
      have hnil : rest.filter (fun x => x = a) = [] := by
        refine List.filter_eq_nil_iff.mpr ?_
        intro x hx
        simp only [decide_eq_true_eq]
        intro hxa
        exact ha (hxa ▸ hx)
      simp [hnil]
    · have hiff : (t ∈ a :: rest) ↔ (t ∈ rest) := by
        constructor
        · intro hm
          rcases List.mem_cons.mp hm with hm | hm
          · exact absurd hm.symm h
          · exact hm
        · intro hm
          exact List.mem_cons_of_mem a hm
      simp [h, ih hrest, hiff]

theorem tfItems_filter (toks : List String) (t : String) :
    (tfItems toks).filter (fun p => p.1 = t)
      = if t ∈ toks then [(t, toks.count t)] else [] := by
  have hkey : (tfItems toks).filter (fun p => p.1 = t)
      = ((dedupFirst toks).filter (fun x => x = t)).map
          (fun u => (u, toks.count u)) := by
    rw [tfItems, List.filter_map]
    rfl
  rw [hkey, filter_eq_of_nodup _ (nodup_dedupFirst toks) t]
  by_cases h : t ∈ toks <;> simp [h, mem_dedupFirst]

/-! ## Index-construction invariants -/

theorem documents_applyAdds (adds : List (String × String × Meta)) :
    ∀ s, (applyAdds s adds).documents = s.documents ++ adds := by
  induction adds with
  | nil => intro s; simp [applyAdds]
  | cons a rest ih =>
    intro s
    simp [applyAdds, ih, add_document]

theorem postings_add (s : RAGState) (id tx : String) (m : Meta) (t : String) :
    (dlookup (add_document s id tx m).inverted_index t).getD []
      = (dlookup s.inverted_index t).getD []
        ++ (if (tokenize tx).count t ≠ 0
            then [(id, (tokenize tx).count t)] else []) := by
  show (dlookup ((tfItems (tokenize tx)).foldl
      (fun d p => dappend d p.1 (id, p.2)) s.inverted_index) t).getD [] = _
  rw [dlookup_foldl_dappend, tfItems_filter]
  by_cases h : t ∈ tokenize tx
  · have hc : (tokenize tx).count t ≠ 0 := by
      simpa [List.count_eq_zero] using h
    simp [h, hc]
  · have hc : (tokenize tx).count t = 0 := List.count_eq_zero.mpr h
    simp [h, hc]

theorem postings_applyAdds (adds : List (String × String × Meta)) :
    ∀ s, (∀ t, (dlookup s.inverted_index t).getD []
        = postingsSpec s.documents t) →
    ∀ t, (dlookup (applyAdds s adds).inverted_index t).getD []
        = postingsSpec (applyAdds s adds).documents t := by
  induction adds with
  | nil => intro s hs t; exact hs t
  | cons a rest ih =>
    intro s hs t
    refine ih (add_document s a.1 a.2.1 a.2.2) ?_ t
    intro u
    rw [postings_add, hs u]
    show _ = postingsSpec (s.documents ++ [a]) u
    simp [postingsSpec, List.filterMap_append]
    by_cases h : (tokenize a.2.1).count u ≠ 0 <;> simp [h]

/-- The posting lists of any reachable store are exactly `postingsSpec`
of its document list. -/
theorem postings_reachable (adds : List (String × String × Meta))
    (t : String) :
    (dlookup (applyAdds initState adds).inverted_index t).getD []
      = postingsSpec (applyAdds initState adds).documents t := by
  refine postings_applyAdds adds initState ?_ t
  intro u
  simp [initState, dlookup, postingsSpec]

theorem doclengths_add (s : RAGState) (id tx : String) (m : Meta)
    (k : String) :
    dlookup (add_document s id tx m).doc_lengths k
      = if id = k then some (tokenize tx).length
        else dlookup s.doc_lengths k := by
  show dlookup (dinsert s.doc_lengths id (tokenize tx).length) k = _
  exact dlookup_dinsert _ _ _ _

/-- Recorded document lengths: the last `add_document` call for an id wins. -/
theorem doclengths_applyAdds (adds : List (String × String × Meta)) :
    ∀ s k, dlookup (applyAdds s adds).doc_lengths k
      = adds.foldl (fun acc a =>
          if a.1 = k then some (tokenize a.2.1).length else acc)
        (dlookup s.doc_lengths k) := by
  induction adds with
  | nil => intro s k; rfl
  | cons a rest ih =>
    intro s k
    show dlookup (applyAdds (add_document s a.1 a.2.1 a.2.2) rest).doc_lengths k = _
    rw [ih, doclengths_add, List.foldl_cons]

theorem foldl_lastwins_none {α : Type} (rest : List (String × α))
    (k : String) (f : String × α → Option ℕ) (acc : Option ℕ)
    (h : ∀ x ∈ rest, x.1 ≠ k) :
    rest.foldl (fun acc a => if a.1 = k then f a else acc) acc = acc := by
  induction rest generalizing acc with
  | nil => rfl
  | cons b r ih =>
    have hb : b.1 ≠ k := h b (List.mem_cons_self b r)
    simp only [List.foldl_cons, hb, if_false]
    exact ih acc (fun x hx => h x (List.mem_cons_of_mem b hx))

theorem foldl_lastwins_mem {α : Type} (l : List (String × α))
    (f : String × α → Option ℕ)
    (hnd : (l.map Prod.fst).Nodup) (a : String × α) (ha : a ∈ l) :
    ∀ acc, l.foldl (fun acc x => if x.1 = a.1 then f x else acc) acc = f a := by
  induction l with
  | nil => cases ha
  | cons b r ih =>
    intro acc
    have hnd' : (b.1 :: r.map Prod.fst).Nodup := by simpa using hnd
    rcases List.nodup_cons.mp hnd' with ⟨hb, hr⟩
    rcases List.mem_cons.mp ha with h | h
    · subst h
      simp only [List.foldl_cons, if_pos rfl]
      refine foldl_lastwins_none r a.1 f (f a) ?_
      intro x hx hxk
      exact hb (hxk ▸ List.mem_map_of_mem Prod.fst hx)
    · have hbk : b.1 ≠ a.1 := by
        intro he
        exact hb (he ▸ List.mem_map_of_mem Prod.fst h)
      simp only [List.foldl_cons, hbk, if_false]
      exact ih hr h acc

/-- With pairwise-distinct doc ids, every stored document's recorded
length is the token count of its own text. -/
theorem doclengths_of_nodup (adds : List (String × String × Meta))
    (hnd : (adds.map Prod.fst).Nodup) (a : String × String × Meta)
    (ha : a ∈ adds) :
    dlookup (applyAdds initState adds).doc_lengths a.1
      = some (tokenize a.2.1).length := by
  rw [doclengths_applyAdds]
  exact foldl_lastwins_mem adds
    (fun x => some (tokenize x.2.1).length) hnd a ha _

theorem build_index_documents (log : ℚ → ℚ) (s : RAGState) :
    (build_index log s).documents = s.documents := by
  simp only [build_index]
  split <;> rfl

theorem build_index_inverted (log : ℚ → ℚ) (s : RAGState) :
    (build_index log s).inverted_index = s.inverted_index := by
  simp only [build_index]
  split <;> rfl

theorem build_index_doclengths (log : ℚ → ℚ) (s : RAGState) :
    (build_index log s).doc_lengths = s.doc_lengths := by
  simp only [build_index]
  split <;> rfl

/-! ## BM25 score characterization -/

theorem mem_postingsSpec_keys (docs : List (String × String × Meta))
    (t : String) (p : String × ℕ) (hp : p ∈ postingsSpec docs t) :
    p.1 ∈ docs.map Prod.fst := by
  rcases List.mem_filterMap.mp hp with ⟨d, hd, hfd⟩
  by_cases h : (tokenize d.2.1).count t ≠ 0
  · rw [if_pos h] at hfd
    cases hfd
    exact List.mem_map_of_mem Prod.fst hd
  · rw [if_neg h] at hfd
    cases hfd

theorem find?_postingsSpec (docs : List (String × String × Meta))
    (hnd : (docs.map Prod.fst).Nodup) (d0 : String × String × Meta)
    (hd : d0 ∈ docs) (t : String) :
    (postingsSpec docs t).find? (fun p => p.1 == d0.1)
      = if (tokenize d0.2.1).count t ≠ 0
        then some (d0.1, (tokenize d0.2.1).count t) else Option.none := by
  induction docs with
  | nil => cases hd
  | cons e rest ih =>
    have hnd' : (e.1 :: rest.map Prod.fst).Nodup := by simpa using hnd
    rcases List.nodup_cons.mp hnd' with ⟨he, hr⟩
    rcases List.mem_cons.mp hd with h | h
    · subst h
      by_cases hc : (tokenize d0.2.1).count t ≠ 0
      · simp [postingsSpec, List.filterMap_cons, hc]
      · have hnone : (postingsSpec rest t).find? (fun p => p.1 == d0.1)
            = Option.none := by
          apply List.find?_eq_none.mpr
          intro p hp
          have hkey := mem_postingsSpec_keys rest t p hp
          simp only [beq_iff_eq, decide_eq_true_eq]
          intro hpe
          exact he (hpe ▸ hkey)
        simp [postingsSpec, List.filterMap_cons, hc] at hnone ⊢
        exact hnone
    · have hne : e.1 ≠ d0.1 := fun hh =>
        he (hh ▸ List.mem_map_of_mem Prod.fst h)
      by_cases hc : (tokenize e.2.1).count t ≠ 0
      · have hpred : (((e.1, (tokenize e.2.1).count t) : String × ℕ).1 == d0.1)
            = false := by
          simpa using hne
        simp only [postingsSpec, List.filterMap_cons, if_pos hc,
          List.find?_cons, hpred]
        exact ih hr h
      · simp only [postingsSpec, List.filterMap_cons, if_neg hc]
        exact ih hr h

theorem foldl_add_eq_sum (f : ℚ → String → ℚ) (g : String → ℚ)
    (h : ∀ a t, f a t = a + g t) :
    ∀ (l : List String) (a : ℚ), l.foldl f a = a + (l.map g).sum := by
  intro l
  induction l with
  | nil => intro a; simp
  | cons t ts ih =>
    intro a
    rw [List.foldl_cons, h, ih, List.map_cons, List.sum_cons]
    ring

/-- The BM25 scoring loop computes exactly the claim's formula with the
clamped normalization, for a store with pairwise-distinct doc ids. -/
theorem bm25_score_eq_spec (s : RAGState)
    (hpost : ∀ t, (dlookup s.inverted_index t).getD []
        = postingsSpec s.documents t)
    (hnd : (s.documents.map Prod.fst).Nodup)
    (d0 : String × String × Meta) (hd : d0 ∈ s.documents)
    (hdl : dlookup s.doc_lengths d0.1 = some (tokenize d0.2.1).length)
    (query_tokens : List String) :
    bm25_score s d0.1 query_tokens
      = specScoreClamped s (tokenize d0.2.1) query_tokens := by
  unfold bm25_score specScoreClamped
  rw [hdl]
  refine foldl_add_eq_sum _ _ ?_ query_tokens 0 |>.trans (zero_add _)
  intro a tok
  rw [hpost, find?_postingsSpec s.documents hnd d0 hd tok]
  unfold bm25ClaimTerm
  by_cases hidf : (dlookup s.idf tok).getD 0 = 0
  · by_cases hc : (tokenize d0.2.1).count tok ≠ 0 <;>
      simp [hidf, hc]
  · by_cases hc : (tokenize d0.2.1).count tok ≠ 0
    · simp only [if_neg hidf, if_pos hc, Option.getD_some]
    · simp only [if_neg hidf, if_neg hc]
      push_neg at hc
      simp [hc]

theorem logW_spec : LogSpec logW := by
  constructor
  · intro x hx
    exact le_max_left 0 (x - 1)
  · intro x hx
    have h1 : (0 : ℚ) < x - 1 := by linarith
    rw [logW, max_eq_right h1.le]
    exact h1

theorem dlookup_map_entry {α β : Type} (l : List (String × α))
    (g : String → α → β) (k : String) :
    dlookup (l.map (fun p => (p.1, g p.1 p.2))) k = (dlookup l k).map (g k) := by
  induction l with
  | nil => rfl
  | cons p rest ih =>
    by_cases h : p.1 = k <;> simp [dlookup, h, ih]

theorem build_index_idf (log : ℚ → ℚ) (s : RAGState)
    (h : s.documents.length ≠ 0) :
    (build_index log s).idf = s.inverted_index.map (fun p =>
      (p.1, log (((s.documents.length : ℚ) - (p.2.length : ℚ) + 1/2)
        / ((p.2.length : ℚ) + 1/2) + 1))) := by
  simp only [build_index]
  rw [if_neg h]

theorem length_postingsSpec (docs : List (String × String × Meta))
    (t : String) :
    (postingsSpec docs t).length
      = (docs.filter (fun d => decide (t ∈ tokenize d.2.1))).length := by
  induction docs with
  | nil => rfl
  | cons e rest ih =>
    by_cases hm : t ∈ tokenize e.2.1
    · have hc : (tokenize e.2.1).count t ≠ 0 := by
        simpa [List.count_eq_zero] using hm
      simp [postingsSpec, List.filterMap_cons, hc, hm, ih, postingsSpec] at ih ⊢
      exact ih
    · have hc : (tokenize e.2.1).count t = 0 := List.count_eq_zero.mpr hm
      simp [postingsSpec, List.filterMap_cons, hc, hm] at ih ⊢
      exact ih

/-! ## Claim C1 -/

/-- C1 (amended): for every index built over documents with
pairwise-distinct ids, every document in it and every tokenized query,
the relevance score equals the claim's BM25 sum
`Σ idf(t) * tf * (k1+1) / (tf + k1 * (1 - b + b * |doc| / A))`, where
`tf` is the term's count in the document's own token list, `|doc|` the
document's own token count — but with `A = max avgDocLength 1`, not
`avgDocLength` itself as the claim states.  Terms with `idf = 0`
contribute `0`. -/
theorem C1_bm25_score_formula (log : ℚ → ℚ)
    (adds : List (String × String × Meta))
    (hnd : (adds.map Prod.fst).Nodup) (d0 : String × String × Meta)
    (hd : d0 ∈ (build_index log (applyAdds initState adds)).documents)
    (query_tokens : List String) :
    bm25_score (build_index log (applyAdds initState adds)) d0.1 query_tokens
      = specScoreClamped (build_index log (applyAdds initState adds))
          (tokenize d0.2.1) query_tokens := by
  have hdocs : (build_index log (applyAdds initState adds)).documents
      = adds := by
    rw [build_index_documents, documents_applyAdds]
    rfl
  refine bm25_score_eq_spec _ ?_ ?_ d0 hd ?_ query_tokens
  · intro t
    rw [build_index_inverted, build_index_documents]
    exact postings_reachable adds t
  · rw [hdocs]
    exact hnd
  · rw [build_index_doclengths]
    exact doclengths_of_nodup adds hnd d0 (by rwa [hdocs] at hd)

/-- Witness for C1: the amended formula evaluated on a concrete
two-document store and query. -/
theorem C1_bm25_score_formula_witness :
    bm25_score (build_index logW
        (applyAdds initState [("d1", "a b", mPlain), ("d2", "b", mPlain)]))
      "d1" ["a"]
      = specScoreClamped (build_index logW
          (applyAdds initState [("d1", "a b", mPlain), ("d2", "b", mPlain)]))
          (tokenize "a b") ["a"] :=
  C1_bm25_score_formula logW [("d1", "a b", mPlain), ("d2", "b", mPlain)]
    (by decide) ("d1", "a b", mPlain) (by decide) ["a"]

unseal Rat.add Rat.mul Rat.inv Rat.sub in
/-- C1 counterexample: on a built store with average document length
1/2 (below the clamp), the computed score of document `d1` against the
query token list `["x"]` is `1`, while the claim's formula yields
`20/29`: the claim's normalization by `avgDocLength` itself does not
match the code's `max(avgDocLength, 1)`. -/
theorem C1_counterexample :
    ("d1", "x", mPlain) ∈ ragC1.documents
    ∧ (ragC1.documents.map Prod.fst).Nodup
    ∧ bm25_score ragC1 "d1" ["x"] = 1
    ∧ specScore ragC1 (tokenize "x") ["x"] = 20/29
    ∧ bm25_score ragC1 "d1" ["x"]
        ≠ specScore ragC1 (tokenize "x") ["x"] := by
  refine ⟨by decide, by decide, by decide, by decide, by decide⟩

/-! ## Claim C3 -/

/-- C3: after `build_index` over any sequence of added documents, every
indexed term with posting list `postings` has
`idf = log((N - df + 1/2) / (df + 1/2) + 1)` where `N` is the stored
document count and `df = postings.length` is also exactly the number of
stored documents whose token list contains the term; with `log` the
natural logarithm (`LogSpec`), the idf is non-negative. -/
theorem C3_idf_formula (log : ℚ → ℚ) (hlog : LogSpec log)
    (adds : List (String × String × Meta)) (term : String)
    (postings : List (String × ℕ))
    (hp : dlookup (build_index log (applyAdds initState adds)).inverted_index
        term = some postings) :
    dlookup (build_index log (applyAdds initState adds)).idf term
      = some (log
          ((((build_index log (applyAdds initState adds)).documents.length : ℚ)
              - (postings.length : ℚ) + 1/2)
            / ((postings.length : ℚ) + 1/2) + 1))
    ∧ 0 ≤ log
        ((((build_index log (applyAdds initState adds)).documents.length : ℚ)
            - (postings.length : ℚ) + 1/2)
          / ((postings.length : ℚ) + 1/2) + 1)
    ∧ postings.length
        = ((build_index log (applyAdds initState adds)).documents.filter
            (fun d => decide (term ∈ tokenize d.2.1))).length := by
  have hdocs : (build_index log (applyAdds initState adds)).documents
      = adds := by
    rw [build_index_documents, documents_applyAdds]
    rfl
  have hinv : (build_index log (applyAdds initState adds)).inverted_index
      = (applyAdds initState adds).inverted_index := build_index_inverted _ _
  have hspec : postings = postingsSpec adds term := by
    have h := postings_reachable adds term
    rw [hinv] at hp
    rw [hp] at h
    rw [documents_applyAdds] at h
    simpa using h
  have hdf : postings.length ≤ adds.length := by
    rw [hspec, postingsSpec]
    exact List.length_filterMap_le _ _
  have hne : adds.length ≠ 0 := by
    intro h0
    rcases List.length_eq_zero.mp h0 with rfl
    simp [applyAdds, initState, dlookup] at hp
  have hlenA : (applyAdds initState adds).documents.length = adds.length := by
    rw [documents_applyAdds]
    rfl
  have hidf := build_index_idf log (applyAdds initState adds)
    (by rw [hlenA]; exact hne)
  have hp' : dlookup (applyAdds initState adds).inverted_index term
      = some postings := by
    rw [← hinv]
    exact hp
  have hmap := dlookup_map_entry (applyAdds initState adds).inverted_index
    (fun _ v => log ((((applyAdds initState adds).documents.length : ℚ)
        - ((v.length : ℕ) : ℚ) + 1/2) / (((v.length : ℕ) : ℚ) + 1/2) + 1)) term
  have hlook : dlookup (build_index log (applyAdds initState adds)).idf term
      = some (log ((((applyAdds initState adds).documents.length : ℚ)
          - (postings.length : ℚ) + 1/2) / ((postings.length : ℚ) + 1/2) + 1)) := by
    rw [hidf]
    refine hmap.trans ?_
    rw [hp']
    rfl
  have hNd : (postings.length : ℚ) ≤ ((applyAdds initState adds).documents.length : ℚ) := by
    rw [hlenA]
    exact_mod_cast hdf
  have harg : (1 : ℚ) ≤ (((applyAdds initState adds).documents.length : ℚ)
      - (postings.length : ℚ) + 1/2) / ((postings.length : ℚ) + 1/2) + 1 := by
    have h1 : (0:ℚ) < (postings.length : ℚ) + 1/2 := by positivity
    have h2 : (0:ℚ) ≤ ((applyAdds initState adds).documents.length : ℚ)
        - (postings.length : ℚ) + 1/2 := by linarith
    nlinarith [div_nonneg h2 h1.le]
  have hdocsA : (build_index log (applyAdds initState adds)).documents
      = (applyAdds initState adds).documents := build_index_documents _ _
  refine ⟨?_, ?_, ?_⟩
  · rw [hdocsA]
    exact hlook
  · rw [hdocsA]
    exact hlog.1 _ harg
  · rw [hdocsA]
    rw [hspec, length_postingsSpec, documents_applyAdds]
    rfl

/-- Witness for C3: the term `"b"` occurs in both documents of a concrete
two-document store; its idf is `log(6/5) ≥ 0`. -/
theorem C3_idf_formula_witness :
    dlookup (build_index logW (applyAdds initState
        [("d1", "a b", mPlain), ("d2", "b", mPlain)])).idf "b"
      = some (logW (6/5))
    ∧ 0 ≤ logW (6/5) := by
  have h := C3_idf_formula logW logW_spec
    [("d1", "a b", mPlain), ("d2", "b", mPlain)] "b" [("d1", 1), ("d2", 1)]
    (by decide)
  have hlen : (build_index logW (applyAdds initState
      [("d1", "a b", mPlain), ("d2", "b", mPlain)])).documents.length = 2 := by
    rw [build_index_documents, documents_applyAdds]
    rfl
  rw [hlen] at h
  norm_num at h
  exact ⟨h.1, h.2.1⟩

/-! ## Claim C9 -/

/-- C9 (amended): after any sequence of `add_document` calls, the
recorded length for a doc id is the token count of the most recently
added document with that id (duplicate ids overwrite the dict entry);
in particular, when all doc ids are pairwise distinct, every stored
document's recorded length is the token count of its own text. -/
theorem C9_doc_length (adds : List (String × String × Meta)) (k : String) :
    dlookup (applyAdds initState adds).doc_lengths k
      = adds.foldl (fun acc a =>
          if a.1 = k then some (tokenize a.2.1).length else acc) Option.none
    ∧ ((adds.map Prod.fst).Nodup →
        ∀ a ∈ adds, dlookup (applyAdds initState adds).doc_lengths a.1
          = some (tokenize a.2.1).length) := by
  constructor
  · rw [doclengths_applyAdds]
    rfl
  · intro hnd a ha
    exact doclengths_of_nodup adds hnd a ha

/-- Witness for C9: one added document records its own token count. -/
theorem C9_doc_length_witness :
    dlookup (applyAdds initState [("a", "x y", mPlain)]).doc_lengths "a"
      = some (tokenize "x y").length :=
  (C9_doc_length [("a", "x y", mPlain)] "a").2 (by decide)
    ("a", "x y", mPlain) (by decide)

/-- C9 counterexample: with a duplicated id, the first stored document
(text `"x y"`, 2 tokens) has recorded length 1 — the token count of the
later document with the same id — so not every stored document's
recorded length equals its own token count. -/
theorem C9_counterexample :
    ("a", "x y", mPlain) ∈ ragDup.documents
    ∧ (tokenize "x y").length = 2
    ∧ dlookup ragDup.doc_lengths "a" = some 1
    ∧ ¬ (∀ d ∈ ragDup.documents,
        dlookup ragDup.doc_lengths d.1 = some (tokenize d.2.1).length) := by
  refine ⟨by decide, by decide, by decide, by decide⟩

/-! ## Search lemmas (C2, C10) -/

theorem nodup_keys_foldl_dinsert {β : Type}
    (docs : List (String × String × Meta))
    (step : List (String × β) → (String × String × Meta) → List (String × β))
    (hstep : ∀ sc d, step sc d = sc ∨ ∃ v, step sc d = dinsert sc d.1 v) :
    ∀ sc : List (String × β), (sc.map Prod.fst).Nodup →
      ((docs.foldl step sc).map Prod.fst).Nodup := by
  induction docs with
  | nil => intro sc h; exact h
  | cons d rest ih =>
    intro sc h
    rw [List.foldl_cons]
    rcases hstep sc d with he | ⟨v, he⟩
    · rw [he]
      exact ih sc h
    · rw [he]
      exact ih _ (nodup_keys_dinsert sc d.1 v h)

theorem nodup_keys_searchScores (s : RAGState) (qtoks : List String)
    (hf : Option String) (df : Option (List String)) :
    ((searchScores s qtoks hf df).map Prod.fst).Nodup := by
  refine nodup_keys_foldl_dinsert s.documents _ ?_ [] (by simp)
  intro sc d
  by_cases h1 : (optStrTruthy hf
      && (pyLower d.2.2.hall != pyLower (hf.getD ""))) = true
  · left
    simp [h1]
  · by_cases h2 : (optListTruthy df
        && !(matches_dietary d.2.2 (df.getD []))) = true
    · left
      simp [h1, h2]
    · right
      exact ⟨bm25_score s d.1 qtoks, by simp [h1, h2]⟩

theorem filterMap_fst_sublist {β : Type}
    (scores : List (String × ℚ))
    (g : String × ℚ → Option (String × β))
    (hg : ∀ p r, g p = some r → r.1 = p.1) :
    List.Sublist ((scores.filterMap g).map Prod.fst) (scores.map Prod.fst) := by
  induction scores with
  | nil => simp
  | cons p rest ih =>
    rw [List.filterMap_cons]
    cases hgp : g p with
    | none =>
      simp only [List.map_cons]
      exact ih.trans (List.sublist_cons_self p.1 (rest.map Prod.fst))
    | some r =>
      have hr1 : r.1 = p.1 := hg p r hgp
      simp only [List.map_cons, hr1]
      exact ih.cons₂ p.1

theorem search_eq (log : ℚ → ℚ) (s0 : RAGState) (query : String)
    (top_k : ℕ) (hf : Option String) (df : Option (List String)) :
    search log s0 query top_k hf df
      = ((searchResults (if s0.built then s0 else build_index log s0)
            (tokenize query) hf df).mergeSort byScoreDesc).take top_k := rfl

theorem mem_searchResults_pos (s : RAGState) (qtoks : List String)
    (hf : Option String) (df : Option (List String)) (r)
    (hr : r ∈ searchResults s qtoks hf df) : 0 < r.2.2.2 := by
  rcases List.mem_filterMap.mp hr with ⟨p, hp, hgp⟩
  by_cases hpos : 0 < p.2
  · rw [if_pos hpos] at hgp
    rcases Option.map_eq_some'.mp hgp with ⟨d, hd, hrd⟩
    rw [← hrd]
    exact hpos
  · rw [if_neg hpos] at hgp
    cases hgp

theorem byScoreDesc_trans (a b c : String × String × Meta × ℚ)
    (h1 : byScoreDesc a b) (h2 : byScoreDesc b c) : byScoreDesc a c := by
  simp only [byScoreDesc, decide_eq_true_eq] at *
  exact h2.trans h1

theorem byScoreDesc_total (a b : String × String × Meta × ℚ) :
    byScoreDesc a b || byScoreDesc b a := by
  simp only [byScoreDesc, decide_eq_true_eq, Bool.or_eq_true]
  exact (le_total b.2.2.2 a.2.2.2)

/-! ## Claim C2 -/

/-- C2: `search` returns at most `top_k` results, every returned score is
strictly positive (zero-scoring documents are excluded), and the list is
sorted in descending score order. -/
theorem C2_search_contract (log : ℚ → ℚ) (s : RAGState) (query : String)
    (top_k : ℕ) (hf : Option String) (df : Option (List String)) :
    (search log s query top_k hf df).length ≤ top_k
    ∧ (∀ r ∈ search log s query top_k hf df, 0 < r.2.2.2)
    ∧ (search log s query top_k hf df).Pairwise
        (fun a b => b.2.2.2 ≤ a.2.2.2) := by
  rw [search_eq]
  refine ⟨List.length_take_le _ _, ?_, ?_⟩
  · intro r hr
    have hr2 := List.mem_of_mem_take hr
    have hr3 := List.mem_mergeSort.mp hr2
    exact mem_searchResults_pos _ _ _ _ r hr3
  · have hsorted := List.sorted_mergeSort
      byScoreDesc_trans byScoreDesc_total
      (searchResults (if s.built then s else build_index log s)
        (tokenize query) hf df)
    have hsorted' := hsorted.imp (fun h => by
      simpa [byScoreDesc] using h)
    exact hsorted'.sublist (List.take_sublist _ _)

/-! ## Claim C10 -/

/-- C10: no two results returned by `search` share a doc id, for every
store — including stores where `add_document` was called repeatedly with
the same id — and all query/filter/topK arguments. -/
theorem C10_search_ids_nodup (log : ℚ → ℚ) (s : RAGState) (query : String)
    (top_k : ℕ) (hf : Option String) (df : Option (List String)) :
    ((search log s query top_k hf df).map (fun r => r.1)).Nodup := by
  rw [search_eq]
  set s' := if s.built then s else build_index log s with hs'
  have h1 : ((searchResults s' (tokenize query) hf df).map Prod.fst).Nodup := by
    refine List.Nodup.sublist (filterMap_fst_sublist _ _ ?_)
      (nodup_keys_searchScores s' (tokenize query) hf df)
    intro p r hgr
    by_cases hpos : 0 < p.2
    · rw [if_pos hpos] at hgr
      rcases Option.map_eq_some'.mp hgr with ⟨d, hd, hrd⟩
      rw [← hrd]
    · rw [if_neg hpos] at hgr
      cases hgr
  have h2 : (((searchResults s' (tokenize query) hf df).mergeSort
      byScoreDesc).map Prod.fst).Nodup := by
    have hperm := List.mergeSort_perm
      (searchResults s' (tokenize query) hf df) byScoreDesc
    exact ((hperm.map Prod.fst).nodup_iff).mpr h1
  have h3 := h2.sublist
    ((List.take_sublist top_k _).map Prod.fst)
  exact h3

/-! ## Dietary filter lemmas (C5, C6) -/

theorem matches_single (m : Meta) (r : String) :
    matches_dietary m [r] = passesRestriction m r := by
  simp only [matches_dietary]
  cases passesRestriction m r <;> simp

theorem matches_all (m : Meta) (rs : List String) :
    matches_dietary m rs = true ↔ ∀ r ∈ rs, matches_dietary m [r] = true := by
  induction rs with
  | nil => simp [matches_dietary]
  | cons r rest ih =>
    by_cases hp : passesRestriction m r = true
    · simp only [matches_dietary, if_pos hp]
      rw [ih]
      constructor
      · intro h x hx
        rcases List.mem_cons.mp hx with rfl | hx
        · simp [hp]
        · exact h x hx
      · intro h x hx
        exact h x (List.mem_cons_of_mem r hx)
    · simp only [matches_dietary, if_neg hp]
      constructor
      · intro h
        cases h
      · intro h
        have hr := h r (List.mem_cons_self r rest)
        simp [hp] at hr

theorem keyword_restriction_iff (m : Meta) (r : String)
    (h1 : pyStrip (pyLower r) ≠ "high-protein")
    (h2 : pyStrip (pyLower r) ≠ "high protein")
    (h3 : pyStrip (pyLower r) ≠ "low-calorie")
    (h4 : pyStrip (pyLower r) ≠ "low calorie") :
    (matches_dietary m [r] = true ↔
      ∃ syn ∈ restrictionSynonyms (pyStrip (pyLower r)),
        strContains (flags_str m) syn = true) := by
  rw [matches_single]
  simp only [passesRestriction, h1, h2, h3, h4, decide_False,
    Bool.or_self, Bool.false_eq_true, if_false, List.any_eq_true]

/-! ## Claim C6 -/

/-- C6: an item flagged only `"vegan"` satisfies `"vegetarian"` (synonym
containment) while an unflagged item does not; in general a keyword
restriction passes iff some synonym from the table (defaulting to the
restriction itself) is a substring of the lower-cased space-joined flag
string, and a restriction list passes iff every restriction passes
individually. -/
theorem C6_keyword_matching :
    (∀ m : Meta, m.dietary_flags = ["vegan"] →
        matches_dietary m ["vegetarian"] = true)
    ∧ (∀ m : Meta, m.dietary_flags = [] →
        matches_dietary m ["vegetarian"] = false)
    ∧ (∀ (m : Meta) (r : String),
        pyStrip (pyLower r) ≠ "high-protein" →
        pyStrip (pyLower r) ≠ "high protein" →
        pyStrip (pyLower r) ≠ "low-calorie" →
        pyStrip (pyLower r) ≠ "low calorie" →
        (matches_dietary m [r] = true ↔
          ∃ syn ∈ restrictionSynonyms (pyStrip (pyLower r)),
            strContains (flags_str m) syn = true))
    ∧ (∀ (m : Meta) (rs : List String),
        matches_dietary m rs = true ↔
          ∀ r ∈ rs, matches_dietary m [r] = true) := by
  refine ⟨?_, ?_, ?_, ?_⟩
  · intro m hf
    have hfs : flags_str m = "vegan" := by
      show String.intercalate " " (m.dietary_flags.map pyLower) = "vegan"
      rw [hf]
      decide
    rw [keyword_restriction_iff m "vegetarian" (by decide) (by decide)
      (by decide) (by decide)]
    refine ⟨"vegan", ?_, ?_⟩
    · show "vegan" ∈ restrictionSynonyms (pyStrip (pyLower "vegetarian"))
      decide
    · rw [hfs]
      decide
  · intro m hf
    have hfs : flags_str m = "" := by
      show String.intercalate " " (m.dietary_flags.map pyLower) = ""
      rw [hf]
      decide
    rw [← Bool.not_eq_true]
    rw [keyword_restriction_iff m "vegetarian" (by decide) (by decide)
      (by decide) (by decide)]
    intro hex
    rcases hex with ⟨syn, hsyn, hcont⟩
    rw [hfs] at hcont
    have hsyn' : syn ∈ restrictionSynonyms (pyStrip (pyLower "vegetarian")) :=
      hsyn
    revert hcont
    have : pyStrip (pyLower "vegetarian") = "vegetarian" := by decide
    rw [this] at hsyn'
    fin_cases hsyn' <;> decide
  · intro m r h1 h2 h3 h4
    exact keyword_restriction_iff m r h1 h2 h3 h4
  · intro m rs
    exact matches_all m rs

/-- Witness for C6: the vegan-flagged and unflagged concrete items. -/
theorem C6_keyword_matching_witness :
    matches_dietary mVegan ["vegetarian"] = true
    ∧ matches_dietary mPlain ["vegetarian"] = false :=
  ⟨C6_keyword_matching.1 mVegan rfl, C6_keyword_matching.2.1 mPlain rfl⟩

/-! ## Claim C5 -/

theorem high_protein_iff (m : Meta) :
    matches_dietary m ["high-protein"] = true
      ↔ ∃ q, pyFloat (pyOr m.protein_g 0) = some q ∧ 15 ≤ q := by
  rw [matches_single]
  have hr : pyStrip (pyLower "high-protein") = "high-protein" := by decide
  simp only [passesRestriction, hr]
  rw [if_pos (by decide)]
  cases hq : pyFloat (pyOr m.protein_g 0) with
  | none => simp
  | some q => simp [not_lt]

theorem low_calorie_iff (m : Meta) :
    matches_dietary m ["low-calorie"] = true
      ↔ ∃ q, pyFloat (pyOr m.calories 9999) = some q ∧ q ≤ 400 := by
  rw [matches_single]
  have hr : pyStrip (pyLower "low-calorie") = "low-calorie" := by decide
  simp only [passesRestriction, hr]
  rw [if_neg (by decide), if_pos (by decide)]
  cases hq : pyFloat (pyOr m.calories 9999) with
  | none => simp
  | some q => simp [not_lt]

/-- C5 (amended): `matches(item, ["high-protein"])` holds iff the value
of `protein_g or 0` (Python falsiness: missing, zero or empty string
become 0) parses to a number ≥ 15 — exactly 15 passes, 14.99 fails — and
`matches(item, ["low-calorie"])` holds iff the value of
`calories or 9999` (missing, ZERO or empty string become the 9999
sentinel) parses to a number ≤ 400; non-numeric unparseable values fail
either restriction. -/
theorem C5_numeric_thresholds (m : Meta) :
    (matches_dietary m ["high-protein"] = true
      ↔ ∃ q, pyFloat (pyOr m.protein_g 0) = some q ∧ 15 ≤ q)
    ∧ (matches_dietary m ["low-calorie"] = true
      ↔ ∃ q, pyFloat (pyOr m.calories 9999) = some q ∧ q ≤ 400)
    ∧ (m.protein_g = PyVal.num 15 →
        matches_dietary m ["high-protein"] = true)
    ∧ (m.protein_g = PyVal.num (1499/100) →
        matches_dietary m ["high-protein"] = false) := by
  refine ⟨high_protein_iff m, low_calorie_iff m, ?_, ?_⟩
  · intro hpg
    refine (high_protein_iff m).mpr ⟨15, ?_, le_refl 15⟩
    rw [hpg]
    have ht : pyTruthy (PyVal.num 15) = true := by
      simp [pyTruthy]
    rw [pyOr, if_pos ht]
    rfl
  · intro hpg
    rw [← Bool.not_eq_true]
    rw [high_protein_iff m]
    rintro ⟨q, hq, hq15⟩
    rw [hpg] at hq
    have ht : pyTruthy (PyVal.num (1499/100)) = true := by
      simp [pyTruthy]
    rw [pyOr, if_pos ht] at hq
    have : q = 1499/100 := by
      simpa [pyFloat] using hq.symm
    rw [this] at hq15
    norm_num at hq15

/-- Witness for C5: the boundary items — protein exactly 15 passes,
14.99 fails. -/
theorem C5_numeric_thresholds_witness :
    matches_dietary { mPlain with protein_g := PyVal.num 15 }
        ["high-protein"] = true
    ∧ matches_dietary { mPlain with protein_g := PyVal.num (1499/100) }
        ["high-protein"] = false :=
  ⟨(C5_numeric_thresholds _).2.2.1 rfl, (C5_numeric_thresholds _).2.2.2 rfl⟩

/-- C5 counterexample: an item with calories present and exactly 0.  The
claim says `matches(item, ["low-calorie"])` holds iff the calories value
(9999 only when missing) is ≤ 400 — so it should hold at 0 — but the
code's `metadata.get("calories") or 9999` treats the falsy 0 as missing
and the item fails the restriction. -/
theorem C5_counterexample :
    mZeroCal.calories = PyVal.num 0
    ∧ specLowCaloriePass mZeroCal
    ∧ matches_dietary mZeroCal ["low-calorie"] = false
    ∧ ¬ (matches_dietary mZeroCal ["low-calorie"] = true
        ↔ specLowCaloriePass mZeroCal) := by
  have h1 : specLowCaloriePass mZeroCal := by
    show ∃ q, pyFloat (PyVal.num 0) = some q ∧ q ≤ 400
    exact ⟨0, rfl, by norm_num⟩
  have h2 : matches_dietary mZeroCal ["low-calorie"] = false := by
    rw [matches_single]
    have hr : pyStrip (pyLower "low-calorie") = "low-calorie" := by decide
    simp only [passesRestriction, hr]
    rw [if_neg (by decide), if_pos (by decide)]
    have ht : pyTruthy mZeroCal.calories = false := by
      simp [mZeroCal, mPlain, pyTruthy]
    rw [pyOr, if_neg (by rw [ht]; exact Bool.false_ne_true)]
    have : pyFloat (PyVal.num 9999) = some 9999 := rfl
    rw [this]
    simp only [decide_eq_false_iff_not, not_not]
    norm_num
  refine ⟨rfl, h1, h2, ?_⟩
  intro hiff
  have := hiff.mpr h1
  rw [h2] at this
  cases this

/-! ## Orchestration lemmas (C4) -/

theorem sent_extend (sent : List Bool) (m turn : ℕ)
    (hlen : sent.length = turn)
    (hsent : ∀ i b, sent.get? i = some b → b = decide (i ≠ m - 1)) :
    ∀ i b, (sent ++ [!decide (turn = m - 1)]).get? i = some b →
      b = decide (i ≠ m - 1) := by
  intro i b hib
  rcases lt_trichotomy i sent.length with hi | hi | hi
  · rw [List.get?_append hi] at hib
    exact hsent i b hib
  · rw [hi, List.get?_concat_length] at hib
    cases hib
    rw [hi, hlen]
    rw [decide_not]
  · have hnone : (sent ++ [!decide (turn = m - 1)]).get? i = Option.none := by
      apply List.get?_eq_none.mpr
      simp only [List.length_append, List.length_cons, List.length_nil]
      omega
    rw [hnone] at hib
    cases hib

theorem runAgentAux_flags (respond : ℕ → ModelResponse) (max_turns : ℕ) :
    ∀ (fuel turn : ℕ) (ft : String) (sent : List Bool),
      sent.length = turn →
      (∀ i b, sent.get? i = some b → b = decide (i ≠ max_turns - 1)) →
      ∀ i b, ((runAgentAux respond max_turns fuel turn ft sent).1).get? i
          = some b → b = decide (i ≠ max_turns - 1) := by
  intro fuel
  induction fuel with
  | zero =>
    intro turn ft sent hlen hsent i b hib
    exact hsent i b hib
  | succ fuel ih =>
    intro turn ft sent hlen hsent i b hib
    rw [runAgentAux] at hib
    set sent' := sent ++ [!decide (turn = max_turns - 1)] with hsent'
    have hext := sent_extend sent max_turns turn hlen hsent
    by_cases hstop : ((respond turn).endTurn || (respond turn).toolUses.isEmpty)
        = true
    · rw [if_pos hstop] at hib
      exact hext i b hib
    · rw [if_neg hstop] at hib
      refine ih (turn + 1) (respond turn).text sent' ?_ hext i b hib
      rw [hsent']
      simp [hlen]

/-- C4 (amended): in the debate-agent loop (`run_agent`), a request sent
at turn index `i` carries the tool set iff `i` is not the final turn
`max_turns - 1` — in particular the final-turn request omits it; the
meal-agent loop (`run_meal_agent`, main.py) attaches the tool set to
every request it sends, including on its final turn. -/
theorem C4_strip_tools :
    (∀ (respond : ℕ → ModelResponse) (max_turns i : ℕ) (b : Bool),
        ((run_agent respond max_turns).1).get? i = some b →
        b = decide (i ≠ max_turns - 1))
    ∧ (∀ (respond : ℕ → ModelResponse) (i : ℕ) (b : Bool),
        ((run_meal_agent respond).1).get? i = some b → b = true) := by
  constructor
  · intro respond max_turns i b hib
    refine runAgentAux_flags respond max_turns max_turns 0 "" [] rfl ?_ i b hib
    intro i b h
    cases h
  · intro respond i b hib
    have hmem : ∀ fuel turn ft sent,
        (∀ x ∈ sent, x = true) →
        ∀ x ∈ (runMealAux respond fuel turn ft sent).1, x = true := by
      intro fuel
      induction fuel with
      | zero =>
        intro turn ft sent hs x hx
        exact hs x hx
      | succ fuel ih =>
        intro turn ft sent hs x hx
        rw [runMealAux] at hx
        have hs' : ∀ y ∈ sent ++ [true], y = true := by
          intro y hy
          rcases List.mem_append.mp hy with hy | hy
          · exact hs y hy
          · simpa using hy
        by_cases hstop : ((respond turn).endTurn
            || (respond turn).toolUses.isEmpty) = true
        · rw [if_pos hstop] at hx
          exact hs' x hx
        · rw [if_neg hstop] at hx
          by_cases hrec : ((respond turn).toolUses.any
              (fun tu => tu.name == "send_recommendation")) = true
          · rw [if_pos hrec] at hx
            have : ∀ y ∈ (sent ++ [true]) ++ [true], y = true := by
              intro y hy
              rcases List.mem_append.mp hy with hy | hy
              · exact hs' y hy
              · simpa using hy
            exact this x hx
          · rw [if_neg hrec] at hx
            exact ih (turn + 1) (respond turn).text (sent ++ [true]) hs' x hx
    exact hmem 10 0 "" [] (by intro x hx; cases hx) b
      (List.get?_mem hib)

/-- Witness for C4: a three-turn debate-agent run whose final-turn
request omits tools, and a meal-agent run whose first request carries
them. -/
theorem C4_strip_tools_witness :
    (false = decide ((2 : ℕ) ≠ 3 - 1)) ∧ (true = true) :=
  ⟨C4_strip_tools.1 respToolLoop 3 2 false (by decide),
   C4_strip_tools.2 respToolLoop 0 true (by decide)⟩

/-- C4 counterexample: with a service that requests a tool on every turn,
`run_meal_agent` sends exactly 10 requests and the one sent on its final
turn (index 9) still carries the tool-schema set — the meal-agent
orchestration loop has no strip-tools guard. -/
theorem C4_counterexample :
    ((run_meal_agent respToolLoop).1).length = 10
    ∧ ((run_meal_agent respToolLoop).1).get? 9 = some true
    ∧ ((run_meal_agent respToolLoop).1).get? 9 ≠ some false := by
  refine ⟨by decide, by decide, by decide⟩

/-! ## Claim C8 -/

theorem build_index_eq_of_fields (log : ℚ → ℚ) (s₁ s₂ : RAGState)
    (hd : s₁.documents = s₂.documents)
    (hi : s₁.inverted_index = s₂.inverted_index)
    (hl : s₁.doc_lengths = s₂.doc_lengths)
    (hne : s₁.documents.length ≠ 0) :
    build_index log s₁ = build_index log s₂ := by
  have hne₂ : s₂.documents.length ≠ 0 := by
    rw [← hd]
    exact hne
  simp only [build_index]
  rw [if_neg hne, if_neg hne₂, hd, hi, hl]

theorem applyAdds_fields (adds : List (String × String × Meta)) :
    ∀ s₁ s₂ : RAGState,
      s₁.documents = s₂.documents →
      s₁.inverted_index = s₂.inverted_index →
      s₁.doc_lengths = s₂.doc_lengths →
      (applyAdds s₁ adds).documents = (applyAdds s₂ adds).documents
      ∧ (applyAdds s₁ adds).inverted_index
          = (applyAdds s₂ adds).inverted_index
      ∧ (applyAdds s₁ adds).doc_lengths = (applyAdds s₂ adds).doc_lengths := by
  induction adds with
  | nil =>
    intro s₁ s₂ hd hi hl
    exact ⟨hd, hi, hl⟩
  | cons a rest ih =>
    intro s₁ s₂ hd hi hl
    refine ih (add_document s₁ a.1 a.2.1 a.2.2)
      (add_document s₂ a.1 a.2.1 a.2.2) ?_ ?_ ?_
    · show s₁.documents ++ [(a.1, a.2.1, a.2.2)]
        = s₂.documents ++ [(a.1, a.2.1, a.2.2)]
      rw [hd]
    · show (tfItems (tokenize a.2.1)).foldl _ s₁.inverted_index
        = (tfItems (tokenize a.2.1)).foldl _ s₂.inverted_index
      rw [hi]
    · show dinsert s₁.doc_lengths a.1 (tokenize a.2.1).length
        = dinsert s₂.doc_lengths a.1 (tokenize a.2.1).length
      rw [hl]

theorem build_index_idem (log : ℚ → ℚ) (s : RAGState) :
    build_index log (build_index log s) = build_index log s := by
  by_cases h : s.documents.length = 0
  · have hs : build_index log s = s := by
      simp only [build_index]
      rw [if_pos h]
    rw [hs, hs]
  · refine build_index_eq_of_fields log _ s
      (build_index_documents log s) (build_index_inverted log s)
      (build_index_doclengths log s) ?_
    rw [build_index_documents]
    exact h

theorem rebuild_recomputes (log : ℚ → ℚ) (s : RAGState)
    (adds : List (String × String × Meta)) :
    build_index log (applyAdds (build_index log s) adds)
      = build_index log (applyAdds s adds) := by
  have hf := applyAdds_fields adds (build_index log s) s
    (build_index_documents log s) (build_index_inverted log s)
    (build_index_doclengths log s)
  have hb0 : ∀ t : RAGState, t.documents.length = 0 →
      build_index log t = t := by
    intro t ht
    simp only [build_index]
    rw [if_pos ht]
  by_cases h : (applyAdds s adds).documents.length = 0
  · have h' : (applyAdds (build_index log s) adds).documents.length = 0 := by
      rw [hf.1]
      exact h
    rw [hb0 _ h', hb0 _ h]
    rw [documents_applyAdds] at h
    rcases List.append_eq_nil.mp (List.length_eq_zero.mp h) with ⟨hs0, hadds⟩
    subst hadds
    show build_index log s = s
    exact hb0 s (by rw [hs0]; rfl)
  · refine build_index_eq_of_fields log _ _ hf.1 hf.2.1 hf.2.2 ?_
    rw [hf.1]
    exact h

/-- C8: building from the same catalog snapshot twice yields identical
idf tables and identical ranked search results for every query;
`build_index` is idempotent (a second build of an unchanged store changes
nothing); and after further `add_document` calls a rebuild recomputes the
state exactly as if the earlier build had never happened. -/
theorem C8_determinism_idempotence :
    (∀ (log : ℚ → ℚ) (fmt : ℚ → String)
        (m₁ m₂ : List (String × List (String × List FoodItem))),
      m₁ = m₂ →
        (build_rag_from_menus log fmt m₁).idf
            = (build_rag_from_menus log fmt m₂).idf
        ∧ ∀ (q : String) (k : ℕ) (hf : Option String)
            (df : Option (List String)),
            search log (build_rag_from_menus log fmt m₁) q k hf df
              = search log (build_rag_from_menus log fmt m₂) q k hf df)
    ∧ (∀ (log : ℚ → ℚ) (s : RAGState),
        build_index log (build_index log s) = build_index log s)
    ∧ (∀ (log : ℚ → ℚ) (s : RAGState)
        (adds : List (String × String × Meta)),
        build_index log (applyAdds (build_index log s) adds)
          = build_index log (applyAdds s adds)) := by
  refine ⟨?_, build_index_idem, rebuild_recomputes⟩
  intro log fmt m₁ m₂ hm
  subst hm
  exact ⟨rfl, fun _ _ _ _ => rfl⟩

/-- Witness for C8: the concrete one-item catalog built twice, and
idempotence on a concrete built store. -/
theorem C8_determinism_idempotence_witness :
    (build_rag_from_menus logW fmt0 menus0).idf
        = (build_rag_from_menus logW fmt0 menus0).idf
    ∧ build_index logW (build_index logW ragC1) = build_index logW ragC1 :=
  ⟨(C8_determinism_idempotence.1 logW fmt0 menus0 menus0 rfl).1,
   C8_determinism_idempotence.2.1 logW ragC1⟩

/-! ## Hall-aggregation lemmas (C7) -/

theorem dlookup_eq_some_of_mem {β : Type} (d : List (String × β))
    (hnd : (d.map Prod.fst).Nodup) (k : String) (v : β)
    (hm : (k, v) ∈ d) : dlookup d k = some v := by
  induction d with
  | nil => cases hm
  | cons p rest ih =>
    have hnd' : (p.1 :: rest.map Prod.fst).Nodup := by simpa using hnd
    rcases List.nodup_cons.mp hnd' with ⟨hp, hr⟩
    rcases List.mem_cons.mp hm with h | h
    · rw [← h]
      show dlookup ((k, v) :: rest) k = some v
      simp [dlookup]
    · have hpk : p.1 ≠ k := by
        intro he
        exact hp (he ▸ List.mem_map_of_mem Prod.fst h)
      obtain ⟨k₀, v₀⟩ := p
      show dlookup ((k₀, v₀) :: rest) k = some v
      rw [dlookup_cons, if_neg hpk]
      exact ih hr h

theorem mem_of_dlookup_eq_some {β : Type} (d : List (String × β))
    (k : String) (v : β) (h : dlookup d k = some v) : (k, v) ∈ d := by
  induction d with
  | nil => cases h
  | cons p rest ih =>
    obtain ⟨k₀, v₀⟩ := p
    rw [dlookup_cons] at h
    by_cases hk : k₀ = k
    · rw [if_pos hk] at h
      cases h
      rw [hk]
      exact List.mem_cons_self _ _
    · rw [if_neg hk] at h
      exact List.mem_cons_of_mem _ (ih h)

theorem dlookup_eq_none_iff {β : Type} (d : List (String × β)) (k : String) :
    dlookup d k = Option.none ↔ k ∉ d.map Prod.fst := by
  induction d with
  | nil => simp [dlookup]
  | cons p rest ih =>
    obtain ⟨k₀, v₀⟩ := p
    rw [dlookup_cons]
    by_cases hk : k₀ = k
    · simp [hk]
    · rw [if_neg hk, ih]
      simp only [List.map_cons, List.mem_cons, not_or]
      constructor
      · intro h
        exact ⟨fun h2 => hk h2.symm, h⟩
      · intro h
        exact h.2

theorem daddQ_keys (d : List (String × ℚ)) (k : String) (q : ℚ) :
    (daddQ d k q).map Prod.fst =
      if k ∈ d.map Prod.fst then d.map Prod.fst
      else d.map Prod.fst ++ [k] := by
  induction d with
  | nil => simp [daddQ]
  | cons p rest ih =>
    obtain ⟨k₀, v₀⟩ := p
    by_cases h : k₀ = k
    · subst h
      simp [daddQ]
    · have h' : ¬ k = k₀ := fun hh => h hh.symm
      by_cases h2 : k ∈ rest.map Prod.fst <;>
        simp [daddQ, h, ih, h', h2]

theorem nodup_keys_daddQ (d : List (String × ℚ)) (k : String) (q : ℚ)
    (h : (d.map Prod.fst).Nodup) : ((daddQ d k q).map Prod.fst).Nodup := by
  rw [daddQ_keys]
  by_cases h2 : k ∈ d.map Prod.fst
  · simp [h2, h]
  · simp [h2, List.nodup_append, h]

theorem mem_daddQ (d : List (String × ℚ)) (k : String) (q : ℚ)
    (p : String × ℚ) (hp : p ∈ daddQ d k q) : p ∈ d ∨ p.1 = k := by
  induction d with
  | nil =>
    simp only [daddQ, List.mem_singleton] at hp
    right
    rw [hp]
  | cons e rest ih =>
    obtain ⟨k₀, v₀⟩ := e
    by_cases h : k₀ = k
    · subst h
      simp only [daddQ, if_pos rfl] at hp
      rcases List.mem_cons.mp hp with h | h
      · right
        rw [h]
      · left
        exact List.mem_cons_of_mem _ h
    · simp only [daddQ, if_neg h] at hp
      rcases List.mem_cons.mp hp with h2 | h2
      · left
        rw [h2]
        exact List.mem_cons_self _ _
      · rcases ih h2 with h3 | h3
        · left
          exact List.mem_cons_of_mem _ h3
        · right
          exact h3

theorem daddQ_pos (d : List (String × ℚ)) (k : String) (q : ℚ)
    (hd : ∀ p ∈ d, 0 < p.2) (hq : 0 < q) :
    ∀ p ∈ daddQ d k q, 0 < p.2 := by
  induction d with
  | nil =>
    intro p hp
    simp only [daddQ, List.mem_singleton] at hp
    rw [hp]
    exact hq
  | cons e rest ih =>
    obtain ⟨k₀, v₀⟩ := e
    intro p hp
    by_cases h : k₀ = k
    · subst h
      simp only [daddQ, if_pos rfl] at hp
      rcases List.mem_cons.mp hp with h | h
      · rw [h]
        have := hd (k₀, v₀) (List.mem_cons_self _ _)
        simp only at this
        positivity
      · exact hd p (List.mem_cons_of_mem _ h)
    · simp only [daddQ, if_neg h] at hp
      rcases List.mem_cons.mp hp with h2 | h2
      · rw [h2]
        exact hd (k₀, v₀) (List.mem_cons_self _ _)
      · exact ih (fun x hx => hd x (List.mem_cons_of_mem _ hx)) p h2

theorem hallScores_keys_nodup (res : List (String × String × Meta × ℚ)) :
    ∀ acc : List (String × ℚ), (acc.map Prod.fst).Nodup →
      (((res.foldl (fun hs r => daddQ hs r.2.2.1.hall r.2.2.2) acc)).map
        Prod.fst).Nodup := by
  induction res with
  | nil => intro acc h; exact h
  | cons r rest ih =>
    intro acc h
    exact ih _ (nodup_keys_daddQ acc r.2.2.1.hall r.2.2.2 h)

theorem hallScores_pos (res : List (String × String × Meta × ℚ))
    (hres : ∀ r ∈ res, 0 < r.2.2.2) :
    ∀ acc : List (String × ℚ), (∀ p ∈ acc, 0 < p.2) →
      ∀ p ∈ res.foldl (fun hs r => daddQ hs r.2.2.1.hall r.2.2.2) acc,
        0 < p.2 := by
  induction res with
  | nil => intro acc h p hp; exact h p hp
  | cons r rest ih =>
    intro acc h p hp
    refine ih (fun x hx => hres x (List.mem_cons_of_mem _ hx)) _ ?_ p hp
    exact daddQ_pos acc r.2.2.1.hall r.2.2.2 h
      (hres r (List.mem_cons_self _ _))

theorem hallScores_keys (res : List (String × String × Meta × ℚ)) :
    ∀ (acc : List (String × ℚ)) (p : String × ℚ),
      p ∈ res.foldl (fun hs r => daddQ hs r.2.2.1.hall r.2.2.2) acc →
      p ∈ acc ∨ ∃ r ∈ res, r.2.2.1.hall = p.1 := by
  induction res with
  | nil => intro acc p hp; exact Or.inl hp
  | cons r rest ih =>
    intro acc p hp
    rcases ih _ p hp with h | ⟨r', hr', he⟩
    · rcases mem_daddQ acc r.2.2.1.hall r.2.2.2 p h with h2 | h2
      · exact Or.inl h2
      · exact Or.inr ⟨r, List.mem_cons_self _ _, h2.symm⟩
    · exact Or.inr ⟨r', List.mem_cons_of_mem _ hr', he⟩

theorem dlookup_foldl_dinsert_mem {β : Type} (l : List β) (key : β → String) :
    ∀ (acc : List (String × β)) (k : String) (v : β),
      dlookup (l.foldl (fun dm d => dinsert dm (key d) d) acc) k = some v →
      v ∈ l ∨ dlookup acc k = some v := by
  induction l with
  | nil => intro acc k v h; exact Or.inr h
  | cons d rest ih =>
    intro acc k v h
    rcases ih _ k v h with hv | hv
    · exact Or.inl (List.mem_cons_of_mem _ hv)
    · rw [dlookup_dinsert] at hv
      by_cases hk : key d = k
      · rw [if_pos hk] at hv
        cases hv
        exact Or.inl (List.mem_cons_self _ _)
      · rw [if_neg hk] at hv
        exact Or.inr hv

theorem search_pos (log : ℚ → ℚ) (s : RAGState) (q : String) (k : ℕ)
    (hf : Option String) (df : Option (List String)) :
    ∀ r ∈ search log s q k hf df, 0 < r.2.2.2 := by
  rw [search_eq]
  intro r hr
  exact mem_searchResults_pos _ _ _ _ r
    (List.mem_mergeSort.mp (List.mem_of_mem_take hr))

theorem search_meta (log : ℚ → ℚ) (s : RAGState) (q : String) (k : ℕ)
    (hf : Option String) (df : Option (List String)) :
    ∀ r ∈ search log s q k hf df, ∃ d ∈ s.documents, r.2.2.1 = d.2.2 := by
  rw [search_eq]
  intro r hr
  have hr2 := List.mem_mergeSort.mp (List.mem_of_mem_take hr)
  rcases List.mem_filterMap.mp hr2 with ⟨p, hp, hgp⟩
  by_cases hpos : 0 < p.2
  · rw [if_pos hpos] at hgp
    rcases Option.map_eq_some'.mp hgp with ⟨d, hd, hrd⟩
    have hdm := dlookup_foldl_dinsert_mem
      (if s.built then s else build_index log s).documents Prod.fst [] p.1 d hd
    rcases hdm with hdm | hdm
    · have hdm' : d ∈ s.documents := by
        by_cases hb : s.built = true
        · rwa [if_pos hb] at hdm
        · rw [if_neg hb, build_index_documents] at hdm
          exact hdm
      exact ⟨d, hdm', by rw [← hrd]⟩
    · cases hdm
  · rw [if_neg hpos] at hgp
    cases hgp

theorem gah_sub (docs : List (String × String × Meta)) :
    ∀ (seen : List String) (x : String), x ∈ seen →
      x ∈ docs.foldl (fun seen d =>
        if d.2.2.hall ≠ "" ∧ d.2.2.hall ∉ seen then seen ++ [d.2.2.hall]
        else seen) seen := by
  induction docs with
  | nil => intro seen x hx; exact hx
  | cons d rest ih =>
    intro seen x hx
    rw [List.foldl_cons]
    by_cases hc : d.2.2.hall ≠ "" ∧ d.2.2.hall ∉ seen
    · rw [if_pos hc]
      exact ih _ x (List.mem_append.mpr (Or.inl hx))
    · rw [if_neg hc]
      exact ih _ x hx

theorem gah_mem (docs : List (String × String × Meta)) :
    ∀ (seen : List String) (d : String × String × Meta), d ∈ docs →
      d.2.2.hall ≠ "" →
      d.2.2.hall ∈ docs.foldl (fun seen d =>
        if d.2.2.hall ≠ "" ∧ d.2.2.hall ∉ seen then seen ++ [d.2.2.hall]
        else seen) seen := by
  induction docs with
  | nil => intro seen d hd; cases hd
  | cons e rest ih =>
    intro seen d hd hne
    rcases List.mem_cons.mp hd with rfl | hd
    · rw [List.foldl_cons]
      by_cases hc : d.2.2.hall ≠ "" ∧ d.2.2.hall ∉ seen
      · rw [if_pos hc]
        exact gah_sub rest _ _ (List.mem_append.mpr (Or.inr (by simp)))
      · rw [if_neg hc]
        have hm : d.2.2.hall ∈ seen := by
          by_contra hnm
          exact hc ⟨hne, hnm⟩
        exact gah_sub rest _ _ hm
    · rw [List.foldl_cons]
      exact ih _ d hd hne

theorem gah_nodup (docs : List (String × String × Meta)) :
    ∀ seen : List String, seen.Nodup →
      (docs.foldl (fun seen d =>
        if d.2.2.hall ≠ "" ∧ d.2.2.hall ∉ seen then seen ++ [d.2.2.hall]
        else seen) seen).Nodup := by
  induction docs with
  | nil => intro seen h; exact h
  | cons d rest ih =>
    intro seen h
    rw [List.foldl_cons]
    by_cases hc : d.2.2.hall ≠ "" ∧ d.2.2.hall ∉ seen
    · rw [if_pos hc]
      refine ih _ ?_
      simp [List.nodup_append, h, hc.2]
    · rw [if_neg hc]
      exact ih _ h

theorem gah_inhall (docs : List (String × String × Meta)) :
    ∀ (seen : List String) (x : String),
      x ∈ docs.foldl (fun seen d =>
        if d.2.2.hall ≠ "" ∧ d.2.2.hall ∉ seen then seen ++ [d.2.2.hall]
        else seen) seen →
      x ∈ seen ∨ ∃ d ∈ docs, d.2.2.hall = x := by
  induction docs with
  | nil => intro seen x hx; exact Or.inl hx
  | cons d rest ih =>
    intro seen x hx
    rw [List.foldl_cons] at hx
    by_cases hc : d.2.2.hall ≠ "" ∧ d.2.2.hall ∉ seen
    · rw [if_pos hc] at hx
      rcases ih _ x hx with h | ⟨e, he, hex⟩
      · rcases List.mem_append.mp h with h | h
        · exact Or.inl h
        · refine Or.inr ⟨d, List.mem_cons_self _ _, ?_⟩
          exact (List.mem_singleton.mp h).symm
      · exact Or.inr ⟨e, List.mem_cons_of_mem _ he, hex⟩
    · rw [if_neg hc] at hx
      rcases ih _ x hx with h | ⟨e, he, hex⟩
      · exact Or.inl h
      · exact Or.inr ⟨e, List.mem_cons_of_mem _ he, hex⟩

theorem padHalls_of_le (top_n : ℕ) (t : List String) (hs : List String)
    (h : top_n ≤ t.length) : padHalls top_n t hs = t := by
  cases hs with
  | nil => rfl
  | cons a l =>
    simp only [padHalls, if_pos h]

theorem padHalls_append (top_n : ℕ) : ∀ (hs t : List String),
    ∃ extra, padHalls top_n t hs = t ++ extra
      ∧ ∀ x ∈ extra, x ∈ hs ∧ x ∉ t := by
  intro hs
  induction hs with
  | nil =>
    intro t
    exact ⟨[], by simp [padHalls], by simp⟩
  | cons h rest ih =>
    intro t
    by_cases h1 : top_n ≤ t.length
    · exact ⟨[], by simp [padHalls, h1], by simp⟩
    · by_cases h2 : h ∈ t
      · rcases ih t with ⟨extra, he, hx⟩
        refine ⟨extra, ?_, ?_⟩
        · simp only [padHalls, if_neg h1, if_pos h2]
          exact he
        · intro x hx'
          rcases hx x hx' with ⟨hxs, hxt⟩
          exact ⟨List.mem_cons_of_mem h hxs, hxt⟩
      · rcases ih (t ++ [h]) with ⟨extra, he, hx⟩
        refine ⟨h :: extra, ?_, ?_⟩
        · simp only [padHalls, if_neg h1, if_neg h2]
          rw [he]
          simp
        · intro x hx'
          rcases List.mem_cons.mp hx' with rfl | hx'
          · exact ⟨List.mem_cons_self _ _, h2⟩
          · rcases hx x hx' with ⟨hxs, hxt⟩
            refine ⟨List.mem_cons_of_mem h hxs, ?_⟩
            intro hxm
            exact hxt (List.mem_append.mpr (Or.inl hxm))

theorem padHalls_length (top_n : ℕ) : ∀ (hs t : List String),
    t.length ≤ top_n → t.Nodup → hs.Nodup →
    top_n - t.length ≤ (hs.filter (fun x => x ∉ t)).length →
    (padHalls top_n t hs).length = top_n := by
  intro hs
  induction hs with
  | nil =>
    intro t h1 _ _ h4
    simp only [List.filter_nil, List.length_nil] at h4
    show t.length = top_n
    omega
  | cons h rest ih =>
    intro t h1 h2 h3 h4
    rcases List.nodup_cons.mp h3 with ⟨hh, hrest⟩
    by_cases hc : top_n ≤ t.length
    · simp only [padHalls, if_pos hc]
      omega
    · by_cases hm : h ∈ t
      · simp only [padHalls, if_neg hc, if_pos hm]
        refine ih t h1 h2 hrest ?_
        have hfeq : (h :: rest).filter (fun x => decide (x ∉ t))
            = rest.filter (fun x => decide (x ∉ t)) := by
          simp [hm]
        rw [hfeq] at h4
        exact h4
      · simp only [padHalls, if_neg hc, if_neg hm]
        refine ih (t ++ [h]) ?_ ?_ hrest ?_
        · simp only [List.length_append, List.length_cons, List.length_nil]
          omega
        · simp [List.nodup_append, h2, hm]
        · have hfeq : rest.filter (fun x => decide (x ∉ t ++ [h]))
              = rest.filter (fun x => decide (x ∉ t)) := by
            refine List.filter_congr ?_
            intro x hx
            have hxh : x ≠ h := fun he => hh (he ▸ hx)
            simp [List.mem_append, hxh]
          have hfc : (h :: rest).filter (fun x => decide (x ∉ t))
              = h :: rest.filter (fun x => decide (x ∉ t)) := by
            simp [hm]
          rw [hfc] at h4
          rw [hfeq]
          simp only [List.length_cons] at h4
          simp only [List.length_append, List.length_cons, List.length_nil]
          omega

theorem length_le_filter_split (all t : List String) (hall : all.Nodup) :
    all.length ≤ t.length + (all.filter (fun x => x ∉ t)).length := by
  have h0 : all.filter (fun x => decide (x ∉ t))
      = all.filter (fun x => !decide (x ∈ t)) := by
    refine List.filter_congr ?_
    intro x _
    exact decide_not
  have h1 := @List.length_eq_length_filter_add _ all
    (fun x => decide (x ∈ t))
  have h2 : (all.filter (fun x => decide (x ∈ t))).length ≤ t.length := by
    refine List.Subperm.length_le ?_
    refine List.Nodup.subperm (hall.filter _) ?_
    intro x hx
    have := (List.mem_filter.mp hx).2
    simpa using this
  show (all.length : ℕ) ≤ t.length
    + (all.filter (fun x => decide (x ∉ t))).length
  rw [h0]
  simp only [Function.comp] at h1
  omega

theorem filterMap_fst_of_ne (l : List (String × ℚ))
    (h : ∀ p ∈ l, p.1 ≠ "") :
    l.filterMap (fun p => if p.1 ≠ "" then some p.1 else Option.none)
      = l.map Prod.fst := by
  induction l with
  | nil => rfl
  | cons p rest ih =>
    rw [List.filterMap_cons, if_pos (h p (List.mem_cons_self _ _))]
    rw [List.map_cons, ih (fun x hx => h x (List.mem_cons_of_mem _ hx))]

theorem bySndDesc_trans (a b c : String × ℚ)
    (h1 : bySndDesc a b) (h2 : bySndDesc b c) : bySndDesc a c := by
  simp only [bySndDesc, decide_eq_true_eq] at *
  exact h2.trans h1

theorem bySndDesc_total (a b : String × ℚ) :
    bySndDesc a b || bySndDesc b a := by
  simp only [bySndDesc, Bool.or_eq_true, decide_eq_true_eq]
  exact le_total b.2 a.2

theorem pairwise_trivial {α : Type} (l : List α) (R : α → α → Prop)
    (h : ∀ a b, R a b) : l.Pairwise R := by
  induction l with
  | nil => exact List.Pairwise.nil
  | cons a rest ih => exact List.Pairwise.cons (fun b _ => h a b) ih

/-! ## Claim C7 -/

/-- C7 (amended): for every preference input and every store whose index
contains at least `N` distinct dining halls, all with NON-EMPTY names,
`score_halls_for_user` with `top_n = N` returns exactly `N` (hall, score)
entries in descending score order; each entry's score is the hall's
aggregate (the summed per-document search scores recorded in
`hallAggregates`, `0` for padded halls), every returned name is a hall of
the store, and no hall left out has an aggregate exceeding any returned
entry's score.  (With an empty-named hall in the store the claim fails:
see the counterexample.) -/
theorem C7_hall_ranking (log : ℚ → ℚ) (prefs : Prefs) (rag : RAGState)
    (N : ℕ)
    (hhall : ∀ d ∈ rag.documents, d.2.2.hall ≠ "")
    (hN : N ≤ (get_all_halls rag).length) :
    (score_halls_for_user log prefs rag N).length = N
    ∧ (score_halls_for_user log prefs rag N).Pairwise
        (fun a b => b.2 ≤ a.2)
    ∧ (∀ p ∈ score_halls_for_user log prefs rag N,
        p.2 = (dlookup (hallAggregates log prefs rag) p.1).getD 0)
    ∧ (∀ p ∈ score_halls_for_user log prefs rag N,
        p.1 ∈ get_all_halls rag)
    ∧ (∀ h ∈ get_all_halls rag,
        (∀ p ∈ score_halls_for_user log prefs rag N, p.1 ≠ h) →
        ∀ p ∈ score_halls_for_user log prefs rag N,
          (dlookup (hallAggregates log prefs rag) h).getD 0 ≤ p.2) := by
  have hs_eq : hallAggregates log prefs rag
      = hallScoresOf (search log rag (prefsQuery prefs) 200 Option.none
          (if (prefsDietaryFilter prefs).isEmpty then Option.none
           else some (prefsDietaryFilter prefs))) := rfl
  set srch := search log rag (prefsQuery prefs) 200 Option.none
    (if (prefsDietaryFilter prefs).isEmpty then Option.none
     else some (prefsDietaryFilter prefs)) with hsrch
  set hs := hallAggregates log prefs rag with hhsdef
  have hres_pos : ∀ r ∈ srch, 0 < r.2.2.2 := search_pos log rag _ 200 _ _
  have hres_doc : ∀ r ∈ srch, ∃ d ∈ rag.documents, r.2.2.1 = d.2.2 :=
    search_meta log rag _ 200 _ _
  have hsND : (hs.map Prod.fst).Nodup :=
    hallScores_keys_nodup srch [] (by simp)
  have hsPos : ∀ p ∈ hs, 0 < p.2 :=
    hallScores_pos srch hres_pos [] (by intro p hp; cases hp)
  have hsKey : ∀ p ∈ hs, ∃ r ∈ srch, r.2.2.1.hall = p.1 := by
    intro p hp
    rcases hallScores_keys srch [] p hp with h | h
    · cases h
    · exact h
  have hsNE : ∀ p ∈ hs, p.1 ≠ "" := by
    intro p hp
    rcases hsKey p hp with ⟨r, hr, he⟩
    rcases hres_doc r hr with ⟨d, hd, hm⟩
    rw [← he, hm]
    exact hhall d hd
  have hsInAll : ∀ p ∈ hs, p.1 ∈ get_all_halls rag := by
    intro p hp
    rcases hsKey p hp with ⟨r, hr, he⟩
    rcases hres_doc r hr with ⟨d, hd, hm⟩
    rw [← he, hm]
    exact gah_mem rag.documents [] d hd (hhall d hd)
  set ranked := hs.mergeSort bySndDesc with hranked
  have hperm : ranked.Perm hs := List.mergeSort_perm hs bySndDesc
  have hrsorted : ranked.Pairwise (fun a b => b.2 ≤ a.2) := by
    have h := List.sorted_mergeSort bySndDesc_trans bySndDesc_total hs
    exact h.imp (fun hab => by simpa [bySndDesc] using hab)
  have hrND : (ranked.map Prod.fst).Nodup :=
    ((hperm.map Prod.fst).nodup_iff).mpr hsND
  have hrNE : ∀ p ∈ ranked, p.1 ≠ "" := fun p hp => hsNE p (hperm.subset hp)
  have hrPos : ∀ p ∈ ranked, 0 < p.2 := fun p hp => hsPos p (hperm.subset hp)
  have hrInAll : ∀ p ∈ ranked, p.1 ∈ get_all_halls rag :=
    fun p hp => hsInAll p (hperm.subset hp)
  have hlook : ∀ p ∈ ranked, dlookup hs p.1 = some p.2 := by
    intro p hp
    have hm := hperm.subset hp
    exact dlookup_eq_some_of_mem hs hsND p.1 p.2 (by rwa [Prod.mk.eta])
  set allH := get_all_halls rag with hallHdef
  have hallND : allH.Nodup := gah_nodup rag.documents [] List.nodup_nil
  set top := ((ranked.take N).filterMap
    (fun p => if p.1 ≠ "" then some p.1 else Option.none)) with htopdef
  have htop : top = (ranked.take N).map Prod.fst :=
    filterMap_fst_of_ne _ (fun p hp => hrNE p (List.mem_of_mem_take hp))
  have htopND : top.Nodup := by
    rw [htop, List.map_take]
    exact hrND.sublist (List.take_sublist N _)
  have htoplen : top.length ≤ N := by
    rw [htop, List.length_map]
    exact List.length_take_le N ranked
  have hpadlen : (padHalls N top allH).length = N := by
    refine padHalls_length N allH top htoplen htopND hallND ?_
    have := length_le_filter_split allH top hallND
    omega
  rcases padHalls_append N allH top with ⟨extra, hpad, hextra⟩
  have hlt_of_mem : ∀ x ∈ extra, ranked.length < N := by
    intro x hx
    by_contra hge
    push_neg at hge
    have htoplen' : top.length = N := by
      rw [htop, List.length_map, List.length_take]
      omega
    have hple := padHalls_of_le N top allH (le_of_eq htoplen'.symm)
    rw [hple] at hpad
    have hlen := congrArg List.length hpad
    rw [List.length_append] at hlen
    have hz : extra.length = 0 := by omega
    rw [List.length_eq_zero.mp hz] at hx
    cases hx
  have hnone_extra : ∀ x ∈ extra, dlookup hs x = Option.none := by
    intro x hx
    rw [dlookup_eq_none_iff]
    intro hxk
    rcases List.mem_map.mp hxk with ⟨p, hp, hpe⟩
    have hpr : p ∈ ranked := hperm.mem_iff.mpr hp
    have htake : ranked.take N = ranked :=
      List.take_of_length_le (le_of_lt (hlt_of_mem x hx))
    have hptop : p.1 ∈ top := by
      rw [htop, htake]
      exact List.mem_map_of_mem Prod.fst hpr
    rw [hpe] at hptop
    exact (hextra x hx).2 hptop
  have hout : score_halls_for_user log prefs rag N
      = ranked.take N ++ extra.map (fun h => (h, (0 : ℚ))) := by
    show (padHalls N top allH).map (fun h => (h, (dlookup hs h).getD 0)) = _
    rw [hpad, List.map_append]
    congr 1
    · rw [htop, List.map_map]
      refine (List.map_congr_left ?_).trans (List.map_id _)
      intro p hp
      show (p.1, (dlookup hs p.1).getD 0) = p
      rw [hlook p (List.mem_of_mem_take hp), Option.getD_some, Prod.mk.eta]
    · refine List.map_congr_left ?_
      intro x hx
      rw [hnone_extra x hx]
      rfl
  refine ⟨?_, ?_, ?_, ?_, ?_⟩
  · show ((padHalls N top allH).map
      (fun h => (h, (dlookup hs h).getD 0))).length = N
    rw [List.length_map]
    exact hpadlen
  · rw [hout]
    refine List.pairwise_append.mpr ⟨?_, ?_, ?_⟩
    · exact hrsorted.sublist (List.take_sublist N _)
    · refine List.pairwise_map.mpr ?_
      exact pairwise_trivial extra _ (fun a b => le_refl 0)
    · intro a ha b hb
      rcases List.mem_map.mp hb with ⟨x, hx, rfl⟩
      exact le_of_lt (hrPos a (List.mem_of_mem_take ha))
  · rw [hout]
    intro p hp
    rcases List.mem_append.mp hp with hptk | hpz
    · rw [hlook p (List.mem_of_mem_take hptk), Option.getD_some]
    · rcases List.mem_map.mp hpz with ⟨x, hx, rfl⟩
      rw [hnone_extra x hx]
      rfl
  · rw [hout]
    intro p hp
    rcases List.mem_append.mp hp with hptk | hpz
    · exact hrInAll p (List.mem_of_mem_take hptk)
    · rcases List.mem_map.mp hpz with ⟨x, hx, rfl⟩
      exact (hextra x hx).1
  · intro h hmem hnot p hp
    cases hkey : dlookup hs h with
    | none =>
      rw [hout] at hp
      rcases List.mem_append.mp hp with hptk | hpz
      · simpa using le_of_lt (hrPos p (List.mem_of_mem_take hptk))
      · rcases List.mem_map.mp hpz with ⟨x, hx, rfl⟩
        simp
    | some v =>
      have hvm : (h, v) ∈ hs := mem_of_dlookup_eq_some hs h v hkey
      have hvr : (h, v) ∈ ranked := hperm.mem_iff.mpr hvm
      have hsplit := (List.take_append_drop N ranked).symm
      rcases List.mem_append.mp (hsplit ▸ hvr) with htk | hdr
      · exfalso
        have hin : (h, v) ∈ score_halls_for_user log prefs rag N := by
          rw [hout]
          exact List.mem_append.mpr (Or.inl htk)
        exact hnot (h, v) hin rfl
      · have hsorted2 := hrsorted
        rw [← List.take_append_drop N ranked] at hsorted2
        have hcross := (List.pairwise_append.mp hsorted2).2.2
        rw [hout] at hp
        rcases List.mem_append.mp hp with hptk | hpz
        · have := hcross p hptk (h, v) hdr
          simpa using this
        · exfalso
          rcases List.mem_map.mp hpz with ⟨x, hx, rfl⟩
          have hdrop : ranked.drop N = [] :=
            List.drop_eq_nil_of_le (le_of_lt (hlt_of_mem x hx))
          rw [hdrop] at hdr
          cases hdr

/-- Witness for C7: a two-hall store with non-empty hall names; the
aggregator returns exactly two entries. -/
theorem C7_hall_ranking_witness :
    (score_halls_for_user logW prefsX ragHallsOK 2).length = 2 :=
  (C7_hall_ranking logW prefsX ragHallsOK 2 (by decide) (by decide)).1

unseal Rat.add Rat.mul Rat.inv Rat.sub List.merge List.mergeSort in
/-- C7 counterexample: `ragHalls` holds three distinct (non-empty) halls
A, C, B, of which A and B score above zero against the preference query,
yet with `top_n = 2` the aggregator returns `[("A", 140/183), ("C", 0)]`:
the empty-named hall displaced B from the ranked cut, B was dropped by
the `if h` filter's aftermath, and the zero-scoring hall C was padded in
— so the result is not "the halls with the highest aggregate relevance",
and padding occurred although two halls scored above zero. -/
theorem C7_counterexample :
    2 ≤ (get_all_halls ragHalls).length
    ∧ score_halls_for_user logW prefsX ragHalls 2 = [("A", 140/183), ("C", 0)]
    ∧ dlookup (hallAggregates logW prefsX ragHalls) "B" = some (35/159)
    ∧ "B" ∈ get_all_halls ragHalls
    ∧ (∀ p ∈ score_halls_for_user logW prefsX ragHalls 2, p.1 ≠ "B")
    ∧ (0 : ℚ) < 35/159
    ∧ ¬ ((35 : ℚ)/159 ≤ 0) := by
  exact ⟨by decide, by decide, by decide, by decide, by decide, by decide,
    by decide⟩

end MenuRag
